import Mathlib

/-!
Verification development for the WFDB annotation codec
(`wfdb/io/annotation.py`): a shallow embedding of the binary
annotation encoder/decoder, the label table, the field validator and
the metadata-extraction helpers, together with theorems settling the
specification claims.

Conventions of the embedding:
* numpy `u1` bytes are modelled as `Nat` values `< 256`; the file is
  processed as a list of byte pairs (`List BytePair`), mirroring
  `load_byte_pairs` which reshapes the byte stream into `[-1, 2]`.
* Python's arbitrary-precision signed integers are `Int`.  Python's
  bitwise `&` against a contiguous mask together with `>>` is written
  with `Int.emod` / division: for every Python int `x`,
  `x & (2^(a+b) - 2^b) >> b == (x mod 2^(a+b)) div 2^b` where `mod`
  is Euclidean (always non-negative), which is exactly `Int.emod`.
* fallible Python code (exceptions) is `Except`/`Option`.
-/

namespace Wfdb

/-- One pair of unsigned bytes of the annotation file, as produced by
`load_byte_pairs` (`np.fromfile(f, '<u1').reshape([-1, 2])`). -/
abbrev BytePair := Nat × Nat

/-- Reinterpret an arbitrary Python integer as an unsigned byte, as
`np.array(...).astype('u1')` does (wraps modulo 256). -/
def u8 (v : Int) : Nat := (v % 256).toNat

/-- Reinterpret an unsigned byte as a signed char, as
`.astype('i1')` does in `proc_extra_field` for `subtype`/`num`. -/
def i8 (b : Nat) : Int := if b > 127 then (b : Int) - 256 else (b : Int)

/-- Reinterpret an arbitrary Python integer as an unsigned 32-bit
value (two's complement wrap), used to express the byte splitting of
`field2bytes`'s SKIP branch. -/
def u32 (v : Int) : Nat := (v % 4294967296).toNat

/-- Arrange a flat byte list into pairs (`reshape([-1, 2])` in
`load_byte_pairs`; annotation files always have even length). -/
def toPairs : List Nat → List BytePair
  | [] => []
  | [b] => [(b, 0)]
  | b0 :: b1 :: rest => (b0, b1) :: toPairs rest

/-- One row of the standard WFDB annotation label map `ANN_LABELS`. -/
structure AnnLabel where
  label_store : Nat
  symbol : String
  description : String
deriving DecidableEq, Repr

/-- The standard library annotation label map `ANN_LABELS`
(41 fixed rows; 0 is used in the file as an indicator flag). -/
def ANN_LABELS : List AnnLabel := [
  ⟨1, "N", "Normal beat"⟩,
  ⟨2, "L", "Left bundle branch block beat"⟩,
  ⟨3, "R", "Right bundle branch block beat"⟩,
  ⟨4, "a", "Aberrated atrial premature beat"⟩,
  ⟨5, "V", "Premature ventricular contraction"⟩,
  ⟨6, "F", "Fusion of ventricular and normal beat"⟩,
  ⟨7, "J", "Nodal (junctional) premature beat"⟩,
  ⟨8, "A", "Atrial premature contraction"⟩,
  ⟨9, "S", "Premature or ectopic supraventricular beat"⟩,
  ⟨10, "E", "Ventricular escape beat"⟩,
  ⟨11, "j", "Nodal (junctional) escape beat"⟩,
  ⟨12, "/", "Paced beat"⟩,
  ⟨13, "Q", "Unclassifiable beat"⟩,
  ⟨14, "~", "Signal quality change"⟩,
  ⟨16, "|", "Isolated QRS-like artifact"⟩,
  ⟨18, "s", "ST change"⟩,
  ⟨19, "T", "T-wave change"⟩,
  ⟨20, "*", "Systole"⟩,
  ⟨21, "D", "Diastole"⟩,
  ⟨22, "\"", "Comment annotation"⟩,
  ⟨23, "=", "Measurement annotation"⟩,
  ⟨24, "p", "P-wave peak"⟩,
  ⟨25, "B", "Left or right bundle branch block"⟩,
  ⟨26, "^", "Non-conducted pacer spike"⟩,
  ⟨27, "t", "T-wave peak"⟩,
  ⟨28, "+", "Rhythm change"⟩,
  ⟨29, "u", "U-wave peak"⟩,
  ⟨30, "?", "Learning"⟩,
  ⟨31, "!", "Ventricular flutter wave"⟩,
  ⟨32, "[", "Start of ventricular flutter/fibrillation"⟩,
  ⟨33, "]", "End of ventricular flutter/fibrillation"⟩,
  ⟨34, "e", "Atrial escape beat"⟩,
  ⟨35, "n", "Supraventricular escape beat"⟩,
  ⟨36, "@", "Link to external data (aux_note contains URL)"⟩,
  ⟨37, "x", "Non-conducted P-wave (blocked APB)"⟩,
  ⟨38, "f", "Fusion of paced and normal beat"⟩,
  ⟨39, "(", "Waveform onset"⟩,
  ⟨40, ")", "Waveform end"⟩,
  ⟨41, "r", "R-on-T premature ventricular contraction"⟩]

/-- The `samptype` branch of `field2bytes` looks the symbol up in
`ANN_LABELS` (`ANN_LABELS.loc[ANN_LABELS['symbol']==value[1],
'label_store'].values[0]`); an absent symbol raises (here: `none`). -/
def symbolToTypecode (sym : String) : Option Nat :=
  (ANN_LABELS.find? (fun r => r.symbol = sym)).map (fun r => r.label_store)

/-- The `'samptype'` branch of `field2bytes`: byte encoding of one
annotation's sample difference `sd` plus its label symbol.  The two
Python byte formulas are rewritten with Euclidean mod/div:
`sd & 255 = sd mod 256`, `(sd & 768) >> 8 = (sd mod 1024) div 256`,
`(sd & 16711680) >> 16 = (sd mod 2^24) div 2^16`,
`(sd & 4278190080) >> 24 = (sd mod 2^32) div 2^24`,
`(sd & 65280) >> 8 = (sd mod 2^16) div 2^8`, identities that hold for
every Python integer `sd` (`&` on negatives is two's complement). -/
def field2bytes_samptype (sd : Int) (sym : String) : Option (List Int) :=
  (symbolToTypecode sym).map (fun (typecode : Nat) =>
    if sd > 1023 then
      -- SKIP: [0, 236, (sd&16711680)>>16, (sd&4278190080)>>24,
      --        sd&255, (sd&65280)>>8, 0, 4*typecode]
      [0, 236, ((u32 sd % 16777216) / 65536 : Nat), ((u32 sd) / 16777216 : Nat),
       ((u32 sd % 256 : Nat) : Int), ((u32 sd % 65536) / 256 : Nat), 0, 4 * (typecode : Int)]
    else
      -- [sd & 255, ((sd & 768) >> 8) + 4*typecode]
      [sd % 256, sd % 1024 / 256 + 4 * (typecode : Int)])

/-- The `'num'` branch of `field2bytes`: `[value, 240]` (240 = 60*4). -/
def field2bytes_num (v : Int) : List Int := [v, 240]

/-- The `'subtype'` branch of `field2bytes`: `[value, 244]` (61*4). -/
def field2bytes_subtype (v : Int) : List Int := [v, 244]

/-- The `'chan'` branch of `field2bytes`: `[value, 248]` (62*4). -/
def field2bytes_chan (v : Int) : List Int := [v, 248]

/-- The `'aux_note'` branch of `field2bytes`:
`[len(value), 252] + [ord(i) for i in value]`, zero-padded to even
length. -/
def field2bytes_aux_note (s : String) : List Int :=
  [((s.length : Nat) : Int), 252] ++ s.data.map (fun c => ((c.toNat : Nat) : Int)) ++
    (if s.length % 2 = 1 then [0] else [])

/-- The accumulating pass of `compact_carry_field`: walk the full
field with `prev_field` (initially 0), keeping an element only when
it differs from the previous value. -/
def compactCarryGo (prev : Int) : List Int → List (Option Int)
  | [] => []
  | v :: rest =>
      if v ≠ prev then some v :: compactCarryGo v rest
      else none :: compactCarryGo prev rest

/-- `compact_carry_field`: compact version of a carry-over field
(`chan` or `num`).  Elements equal to the previously written (or
implicit, starting at 0) value become `None`; an all-`None` result
collapses to `None` (`np.array_equal(compact_field, [None]*n)`). -/
def compact_carry_field : Option (List Int) → Option (List (Option Int))
  | none => none
  | some full =>
      let compact := compactCarryGo 0 full
      if compact.all (fun x => x = none) then none else some compact

/-- The `subtype` part of `Annotation._compact_fields`: elements equal
to 0 (the default) are not written; an all-default field collapses to
`None`. -/
def compact_subtype : Option (List Int) → Option (List (Option Int))
  | none => none
  | some xs =>
      let compact := xs.map (fun v => if v = 0 then none else some v)
      if compact.all (fun x => x = none) then none else some compact

/-- The `aux_note` part of `Annotation._compact_fields`: empty strings
are not written; an all-empty field collapses to `None`. -/
def compact_aux_note : Option (List String) → Option (List (Option String))
  | none => none
  | some xs =>
      let compact := xs.map (fun v => if v = "" then none else some v)
      if compact.all (fun x => x = none) then none else some compact

/-- The sample differences written by `calc_core_bytes`:
`[sample[0]]` for a single annotation, else
`concatenate(([sample[0]], diff(sample)))`.  (The empty case raises
in the source and is rejected by `check_field('sample')`.) -/
def calc_sampdiff : List Int → List Int
  | [] => []
  | s0 :: rest => s0 :: (List.zipWith (fun b a => b - a) rest (s0 :: rest))

/-- Element `i` of a compacted optional field (a compacted field that
was `None`, i.e. blank, contributes no bytes for any annotation;
`calc_core_bytes` skips blank fields via `extra_write_fields` and
per-annotation `None` values via `if value is not None`). -/
def compactGet (f : Option (List (Option α))) (i : Nat) : Option α :=
  match f with
  | none => none
  | some l => l.getD i none

/-- The bytes contributed by annotation `i` in the
`calc_core_bytes` loop: the `samptype` pair first, then the optional
fields in the source's order `num, subtype, chan, aux_note`. -/
def eventBytes (sd : Int) (sym : String) (nm : Option Int) (sub : Option Int)
    (ch : Option Int) (ax : Option String) : Option (List Int) :=
  (field2bytes_samptype sd sym).map (fun core =>
    core ++ (match nm with | some v => field2bytes_num v | none => []) ++
      (match sub with | some v => field2bytes_subtype v | none => []) ++
      (match ch with | some v => field2bytes_chan v | none => []) ++
      (match ax with | some s => field2bytes_aux_note s | none => []))

/-- The per-annotation loop of `calc_core_bytes`, iterating the
sample differences and symbols in lockstep (`i` is threaded through
the compacted optional fields). -/
def coreBytesGo (nm sub ch : Option (List (Option Int)))
    (ax : Option (List (Option String))) :
    List Int → List String → Nat → Option (List Int)
  | [], _, _ => some []
  | _ :: _, [], _ => none
  | sd :: sds, sym :: syms, i =>
      match eventBytes sd sym (compactGet nm i) (compactGet sub i)
          (compactGet ch i) (compactGet ax i) with
      | none => none
      | some block =>
          match coreBytesGo nm sub ch ax sds syms (i + 1) with
          | none => none
          | some rest => some (block ++ rest)

/-- `calc_core_bytes`: all used annotation fields of one annotation
set converted to the flat byte list that is written between the
metadata prologue and the file terminator.  The final
`.astype('u1')` wrap is the `u8` map.  `none` models the exceptions
the source can raise (unknown symbol / length mismatch). -/
def calc_core_bytes (sample : List Int) (symbol : List String)
    (subtype : Option (List Int)) (chan : Option (List Int))
    (num : Option (List Int)) (aux_note : Option (List String)) :
    Option (List Nat) :=
  let sampdiff := calc_sampdiff sample
  let nm := compact_carry_field num
  let ch := compact_carry_field chan
  let sub := compact_subtype subtype
  let ax := compact_aux_note aux_note
  (coreBytesGo nm sub ch ax sampdiff symbol 0).map (fun l => l.map u8)

/-- The six per-annotation accumulator lists of `extract_ann_data`.
`subtype`/`num` hold signed chars (`Int`), `chan` unsigned bytes,
`sample` the running totals (which skip words can make negative). -/
structure AnnData where
  sample : List Int
  label_store : List Nat
  subtype : List Int
  chan : List Nat
  num : List Int
  aux_note : List String
deriving DecidableEq, Repr

/-- The `update` flag dictionary of `extract_ann_data`: whether each
extra field still needs a default/carried value for the current
annotation. -/
structure UpdateFlags where
  subtype : Bool
  chan : Bool
  num : Bool
  aux_note : Bool
deriving DecidableEq, Repr

/-- `proc_core_fields`: read the sample difference and label store of
the current annotation from the unconsumed byte pairs (the source
indexes `file_bytes` from `bpi` onwards and never looks back, so the
embedding consumes the suffix list; `bpi = bpi + k` is `drop k`).
Out-of-range reads (which raise in numpy) return the pair `(0, 0)`. -/
def proc_core_fields (fb : List BytePair) : Int × Nat × List BytePair :=
  let p0 := fb.headD (0, 0)
  let label_store := p0.2 / 4
  if label_store ≠ 59 then
    (((p0.1 : Int) + 256 * ((p0.2 : Int) % 4), label_store, fb.drop 1))
  else
    let p1 := fb.getD 1 (0, 0)
    let p2 := fb.getD 2 (0, 0)
    let p3 := fb.getD 3 (0, 0)
    let sd : Int := 65536 * (p1.1 : Int) + 16777216 * (p1.2 : Int) +
      (p2.1 : Int) + 256 * (p2.2 : Int)
    let sd := if sd > 2147483647 then sd - 4294967296 else sd
    let sd := sd + (p3.1 : Int) + 256 * ((p3.2 : Int) % 4)
    (sd, p3.2 / 4, fb.drop 4)

/-- `proc_extra_field`: process one extra field word (tag 60–63) of
the current annotation, appending to the matching accumulator list
and clearing its update flag. -/
def proc_extra_field (label_store : Nat) (fb : List BytePair) (st : AnnData)
    (u : UpdateFlags) : AnnData × UpdateFlags × List BytePair :=
  -- SUB
  if label_store = 61 then
    ({ st with subtype := st.subtype ++ [i8 (fb.headD (0, 0)).1] },
     { u with subtype := false }, fb.drop 1)
  -- CHAN
  else if label_store = 62 then
    ({ st with chan := st.chan ++ [(fb.headD (0, 0)).1] },
     { u with chan := false }, fb.drop 1)
  -- NUM
  else if label_store = 60 then
    ({ st with num := st.num ++ [i8 (fb.headD (0, 0)).1] },
     { u with num := false }, fb.drop 1)
  -- aux_note: length byte, then ceil(len/2) pairs, odd length padded
  else if label_store = 63 then
    let len := (fb.headD (0, 0)).1
    let nb := (len + 1) / 2
    let flat := ((fb.drop 1).take nb).flatMap (fun p => [p.1, p.2])
    let auxbytes := if len % 2 = 1 then flat.dropLast else flat
    ({ st with aux_note := st.aux_note ++ [String.mk (auxbytes.map Char.ofNat)] },
     { u with aux_note := false }, fb.drop (1 + nb))
  else (st, u, fb)

/-- `proc_extra_field` with a recognised extra tag consumes at least
one byte pair (used for termination of the extra-field loop). -/
def proc_extra_field_shrink (tag : Nat) (fb : List BytePair) (st : AnnData)
    (u : UpdateFlags) (h0 : fb ≠ []) (h1 : 59 < tag) (h2 : tag ≤ 63) :
    (proc_extra_field tag fb st u).2.2.length < fb.length := by
  have hlen : 0 < fb.length := List.length_pos.mpr h0
  unfold proc_extra_field
  interval_cases tag <;> simp_all [List.length_drop] <;> omega

/-- The inner `while current_label_store > 59` loop of
`extract_ann_data`, consuming all extra-field words of the current
annotation.  (File bytes are unsigned 8-bit, so the byte's tag is
always ≤ 63 and a tag > 59 implies a pair is present; the extra
guard conjuncts only make totality explicit.) -/
def proc_extra_fields_loop (fb : List BytePair) (st : AnnData) (u : UpdateFlags) :
    AnnData × UpdateFlags × List BytePair :=
  let tag := (fb.headD (0, 0)).2 / 4
  if h : fb ≠ [] ∧ 59 < tag ∧ tag ≤ 63 then
    let r := proc_extra_field tag fb st u
    proc_extra_fields_loop r.2.2 r.1 r.2.1
  else (st, u, fb)
termination_by fb.length
decreasing_by
  exact proc_extra_field_shrink _ fb st u h.1 h.2.1 h.2.2

/-- The extra-field loop never produces more residual pairs than it
was given. -/
def proc_extra_fields_loop_length_le (fb : List BytePair) (st : AnnData)
    (u : UpdateFlags) : (proc_extra_fields_loop fb st u).2.2.length ≤ fb.length := by
  induction fb, st, u using proc_extra_fields_loop.induct with
  | case1 fb st u tag h r ih =>
      rw [proc_extra_fields_loop]
      simp only [tag, r] at *
      rw [dif_pos h]
      exact le_of_lt (lt_of_le_of_lt ih
        (proc_extra_field_shrink _ fb st u h.1 h.2.1 h.2.2))
  | case2 fb st u tag h =>
      rw [proc_extra_fields_loop]
      simp only [tag] at *
      rw [dif_neg h]

/-- `update_extra_fields`: set defaults (`subtype` 0, `aux_note` "")
or carry over the previous value (`chan`, `num`; 0 when there is no
previous annotation) for every extra field the current annotation did
not supply. -/
def update_extra_fields (st : AnnData) (u : UpdateFlags) : AnnData :=
  let st := if u.subtype then { st with subtype := st.subtype ++ [0] } else st
  let st := if u.chan then { st with chan := st.chan ++ [st.chan.getLastD 0] } else st
  let st := if u.num then { st with num := st.num ++ [st.num.getLastD 0] } else st
  if u.aux_note then { st with aux_note := st.aux_note ++ [""] } else st

/-- `rm_last`: pop each accumulator list. -/
def rm_last (st : AnnData) : AnnData :=
  ⟨st.sample.dropLast, st.label_store.dropLast, st.subtype.dropLast,
   st.chan.dropLast, st.num.dropLast, st.aux_note.dropLast⟩

/-- The main `while (bpi < file_bytes.shape[0] - 1)` loop of
`extract_ann_data`.  The Python truncation test `if sampto and
sampto < sample_total` is truthiness on a number: it fires only for a
supplied *and nonzero* bound. -/
def extract_ann_data_loop (fb : List BytePair) (sample_total : Int) (st : AnnData)
    (sampto : Option Int) : AnnData :=
  if h : fb.length ≤ 1 then st
  else
    let sd := (proc_core_fields fb).1
    let ls := (proc_core_fields fb).2.1
    let total := sample_total + sd
    let st1 : AnnData :=
      { st with sample := st.sample ++ [total], label_store := st.label_store ++ [ls] }
    let r2 := proc_extra_fields_loop (proc_core_fields fb).2.2 st1 ⟨true, true, true, true⟩
    let st2 := update_extra_fields r2.1 r2.2.1
    match sampto with
    | some t => if t ≠ 0 ∧ t < total then rm_last st2
                else extract_ann_data_loop r2.2.2 total st2 (some t)
    | none => extract_ann_data_loop r2.2.2 total st2 none
termination_by fb.length
decreasing_by
  all_goals
    refine lt_of_le_of_lt (proc_extra_fields_loop_length_le _ _ _) ?_
    have h4 : (proc_core_fields fb).2.2.length ≤ fb.length - 1 := by
      unfold proc_core_fields
      dsimp only
      split <;> simp [List.length_drop] <;> omega
    omega

/-- `extract_ann_data`: decode the annotation data fields from the
file byte pairs, starting with empty accumulators and running sample
total 0. -/
def extract_ann_data (fb : List BytePair) (sampto : Option Int) : AnnData :=
  extract_ann_data_loop fb 0 ⟨[], [], [], [], [], []⟩ sampto

/-- `get_info_inds`: the indices of annotations that potentially hold
file-level definition information (`sample == 0` and
`label_store == 22`), and the indices to be removed (those plus every
annotation with `label_store == 0`).  The source builds Python sets;
lists with the same membership are used here. -/
def get_info_inds (sample : List Int) (label_store : List Nat) :
    List Nat × List Nat :=
  let n := sample.length
  let potential_info_inds := (List.range n).filter
    (fun i => sample.getD i 0 = 0 ∧ label_store.getD i 0 = 22)
  let notann_inds := (List.range n).filter (fun i => label_store.getD i 0 = 0)
  (potential_info_inds, potential_info_inds ++ notann_inds)

/-- `rm_empty_indices` applied to all six data lists: drop the listed
indices (`keep_inds` are computed from the first list's length, as in
the source); an empty removal set returns the inputs unchanged. -/
def rm_empty_indices_all (rm_inds : List Nat) (st : AnnData) : AnnData :=
  if rm_inds = [] then st
  else
    let keep := (List.range st.sample.length).filter (fun i => ¬ i ∈ rm_inds)
    ⟨keep.filterMap st.sample.get?, keep.filterMap st.label_store.get?,
     keep.filterMap st.subtype.get?, keep.filterMap st.chan.get?,
     keep.filterMap st.num.get?, keep.filterMap st.aux_note.get?⟩

/-- The core decoding pipeline of `rdann` (no range filtering):
extract the data fields, then excise the metadata/indicator
annotations found by `get_info_inds`. -/
def decode_core (fb : List BytePair) (sampto : Option Int) : AnnData :=
  let st := extract_ann_data fb sampto
  rm_empty_indices_all (get_info_inds st.sample st.label_store).2 st

/-- The `'sample'` branch of `Annotation.check_field`: the field must
be non-empty, with non-negative entries, non-negative successive
differences (`sampdiffs` starts with `sample[0]`), and no difference
above `2147483648` (the source tests `max(sampdiffs) > 2147483648`).
`min(l) < 0` is written as `l.any (· < 0)` and `max(l) > K` as
`l.any (· > K)`, which coincide for the non-empty lists reaching
those tests. -/
def check_field_sample (sample : List Int) : Except String Unit :=
  if sample = [] then
    .error "The sample field must be a numpy array with length greater than 0"
  else
    let sampdiffs := calc_sampdiff sample
    if sample.any (fun x => x < 0) then
      .error "The sample field must only contain non-negative integers"
    else if sampdiffs.any (fun d => d < 0) then
      .error "The sample field must contain monotonically increasing sample numbers"
    else if sampdiffs.any (fun d => d > 2147483648) then
      .error "WFDB annotation files cannot store sample differences greater than 2**31"
    else .ok ()

/-- `Annotation._create_label_map`, exactly as the source has it: when
the `custom_labels` attribute is truthy (a non-empty list of
definitions), line 644 reads the *local* variable `custom_labels`
(`if 'label_store' not in list(custom_labels):`), which is assigned
only later on line 656 — Python raises `UnboundLocalError` before any
store-code allocation can happen.  With no custom labels the map is a
copy of the standard table.  A custom definition is
`(optional store, symbol, description)`. -/
def create_label_map (custom_labels : Option (List (Option Nat × String × String))) :
    Except String (List AnnLabel) :=
  match custom_labels with
  | none => .ok ANN_LABELS
  | some [] => .ok ANN_LABELS
  | some (_ :: _) =>
      .error "UnboundLocalError: local variable custom_labels referenced before assignment"

/-- The sampling-frequency fallback at the end of `rdann`
(`if fs is None: try: rec = record.rdheader(...); fs = rec.fs
except: pass`).  `record.rdheader` lives outside this file's source.
Modelled from the spec: the header reader is the collaborator
`lookup_sampling_frequency(record_name) -> frequency | fails`, an
abstract fallible lookup.  The returned `Bool` records whether the
header reader was consulted. -/
def rdann_fs_fallback {α : Type} (fs : Option α) (rdheader : Except Unit α) :
    Option α × Bool :=
  match fs with
  | some f => (some f, false)
  | none =>
      match rdheader with
      | .ok f => (some f, true)
      | .error _ => (none, true)

/-- Failures of `extract_ann_info`: a list index out of range
(including an unterminated definitions block and a definition line
the regex does not match — `findall(...)[0]` on no match), and the
infinite loop the source falls into on a `## ` comment it cannot
interpret (modelled by fuel exhaustion). -/
inductive InfoErr
  | indexError
  | nonTermination
deriving DecidableEq, Repr

/-- Digit characters to the number they denote. -/
def digitsToNat (cs : List Char) : Nat :=
  cs.foldl (fun a c => 10 * a + (c.toNat - 48)) 0

/-- The capture group `(\d+\.?\d*)` of `rx_fs`, read as an exact
decimal: one or more digits, optionally followed by `.` and more
digits.  (Python converts the captured text with `float`; annotation
frequencies are short decimals, modelled exactly in `ℚ`.) -/
def parse_decimal (cs : List Char) : Option ℚ :=
  let d1 := cs.takeWhile Char.isDigit
  if d1 = [] then none
  else
    match cs.drop d1.length with
    | '.' :: rest2 =>
        let d2 := rest2.takeWhile Char.isDigit
        some ((digitsToNat d1 : ℚ) + (digitsToNat d2 : ℚ) / (10 : ℚ) ^ d2.length)
    | _ => some ((digitsToNat d1 : ℚ))

/-- `str.startswith(p)` on the character lists of the two strings
(Python strings are sequences of code points, exactly `String.data`). -/
def startsWithChars (s p : String) : Bool := p.data.isPrefixOf s.data

/-- `rx_fs.findall(aux_note[i])`:
`"## time resolution: (\d+\.?\d*)"`.  The Python pattern is
unanchored; the frequency comments this codec itself writes carry it
from position 0, which is how the embedding matches it. -/
def rx_fs_match (s : String) : Option ℚ :=
  if startsWithChars s "## time resolution: " then parse_decimal (s.data.drop 20) else none

/-- `round(fs, 8)` on the exact decimal model.  (Python rounds binary
doubles with banker's rounding; the difference is immaterial for the
decimal values written by this codec.) -/
def pyround8 (q : ℚ) : ℚ := ((round (q * 100000000) : Int) : ℚ) / 100000000

/-- The integer normalization applied to a recovered frequency:
`if round(fs, 8) == float(int(fs)): fs = int(fs)` (the values here
are non-negative, so `int` truncation is `⌊·⌋`). -/
def normalize_fs (q : ℚ) : ℚ := if pyround8 q = ((⌊q⌋ : Int) : ℚ) then ((⌊q⌋ : Int) : ℚ) else q

/-- `rx_custom_label.findall(aux_note[i])[0]`:
`"(\d+) (\S+) (.+)"` — store code, a space, a non-whitespace symbol,
a space, and a non-empty description.  (Unanchored in Python; the
definition lines this codec writes match from position 0.) -/
def rx_custom_label_match (s : String) : Option (Nat × String × String) :=
  let cs := s.data
  let d1 := cs.takeWhile Char.isDigit
  if d1 = [] then none
  else
    match cs.drop d1.length with
    | ' ' :: rest =>
        let sym := rest.takeWhile (fun c => ¬ c.isWhitespace)
        if sym = [] then none
        else
          match rest.drop sym.length with
          | ' ' :: rest2 =>
              if rest2 = [] then none
              else some (digitsToNat d1, String.mk sym, String.mk rest2)
          | _ => none
    | _ => none

/-- The inner `while aux_note[i] != '## end of definitions'` loop of
`extract_ann_info`: collect one custom label per line; running past
the end of the list or hitting a line the regex rejects raises
(`findall(...)[0]` on a non-matching line is an IndexError).  The
loop advances `i` on every iteration, so a fuel of
`aux.length + 1` can never run out; the fuel argument only makes the
recursion structural. -/
def parse_defs_lines (aux : List String) :
    Nat → Nat → List (Nat × String × String) →
    Except InfoErr (List (Nat × String × String) × Nat)
  | 0, _, _ => .error .nonTermination
  | fuel + 1, i, cl =>
      match aux.get? i with
      | none => .error .indexError
      | some a =>
          if a = "## end of definitions" then .ok (cl, i + 1)
          else
            match rx_custom_label_match a with
            | none => .error .indexError
            | some t => parse_defs_lines aux fuel (i + 1) (cl ++ [t])

/-- The `while i < len(potential_info_inds)` loop of
`extract_ann_info`.  NOTE the source indexes `aux_note[i]` with the
loop counter itself, so only the first `k` auxiliary notes are ever
examined, where `k = len(potential_info_inds)`.  A `## ` comment that
is neither a (first) time-resolution comment nor the definitions
header leaves `i` unchanged in the source — an infinite loop,
modelled by the fuel argument running out. -/
def extract_ann_info_loop (aux : List String) (k : Nat) :
    Nat → Nat → Option ℚ → List (Nat × String × String) →
    Except InfoErr (Option ℚ × List (Nat × String × String))
  | 0, _, _, _ => .error .nonTermination
  | fuel + 1, i, fs, cl =>
      if i < k then
        match aux.get? i with
        | none => .error .indexError
        | some a =>
            if startsWithChars a "## " then
              -- `if not fs:` — numeric truthiness: unset or zero
              if fs = none ∨ fs = some (0 : ℚ) then
                match rx_fs_match a with
                | some q => extract_ann_info_loop aux k fuel (i + 1)
                    (some (normalize_fs q)) cl
                | none =>
                    if a = "## annotation type definitions" then
                      match parse_defs_lines aux (aux.length + 1) (i + 1) cl with
                      | .error e => .error e
                      | .ok (cl2, i2) => extract_ann_info_loop aux k fuel i2 fs cl2
                    else extract_ann_info_loop aux k fuel i fs cl
              else
                if a = "## annotation type definitions" then
                  match parse_defs_lines aux (aux.length + 1) (i + 1) cl with
                  | .error e => .error e
                  | .ok (cl2, i2) => extract_ann_info_loop aux k fuel i2 fs cl2
                else extract_ann_info_loop aux k fuel i fs cl
            else extract_ann_info_loop aux k fuel (i + 1) fs cl
      else .ok (fs, cl)

/-- `extract_ann_info`: recover the sampling frequency and custom
label definitions from the first `k` auxiliary notes, where `k` is
the number of potential info annotations; an empty collection of
custom labels becomes `None`, never an empty list. -/
def extract_ann_info (k : Nat) (aux : List String) :
    Except InfoErr (Option ℚ × Option (List (Nat × String × String))) :=
  if k > 0 then
    match extract_ann_info_loop aux k (k + aux.length + 1) 0 none [] with
    | .error e => .error e
    | .ok (fs, cl) => .ok (fs, if cl = [] then none else some cl)
  else .ok (none, none)

/-!  An abstract grammar of well-formed annotation byte streams: one
core word (plain or SKIP) per annotation followed by its extra-field
words.  `assemble` renders such a stream into the byte pairs the
decoder consumes; the claims about the decoder's behaviour are proved
against this grammar. -/

/-- Abstract core (sample difference + label store) word. -/
inductive CoreW
  | plain (d : Nat) (c : Nat)
  | skip (d : Int) (c : Nat)
deriving DecidableEq, Repr

/-- Validity of a core word: a plain word holds a 10-bit difference,
a SKIP word a signed 32-bit one; the store fits beside the two high
difference bits (every real store is ≤ 49). -/
def CoreW.ok : CoreW → Prop
  | .plain d c => d ≤ 1023 ∧ c ≤ 58
  | .skip d c => -2147483648 ≤ d ∧ d ≤ 2147483647 ∧ c ≤ 58

/-- The sample difference carried by a core word. -/
def CoreW.diff : CoreW → Int
  | .plain d _ => (d : Int)
  | .skip d _ => d

/-- The label store carried by a core word. -/
def CoreW.store : CoreW → Nat
  | .plain _ c => c
  | .skip _ c => c

/-- Byte pairs of a core word (matching `field2bytes`'s two shapes). -/
def CoreW.pairs : CoreW → List BytePair
  | .plain d c => [(d % 256, d / 256 + 4 * c)]
  | .skip d c => [(0, 236), ((u32 d / 65536) % 256, u32 d / 16777216),
                  (u32 d % 256, (u32 d / 256) % 256), (0, 4 * c)]

/-- Abstract extra-field word (tags 60–63). -/
inductive ExtraW
  | wnum (v : Nat)
  | wsub (v : Nat)
  | wchan (v : Nat)
  | waux (cs : List Nat)
deriving DecidableEq, Repr

/-- The 6-bit tag of an extra-field word. -/
def ExtraW.tag : ExtraW → Nat
  | .wnum _ => 60
  | .wsub _ => 61
  | .wchan _ => 62
  | .waux _ => 63

/-- Validity of an extra word: payloads are unsigned bytes; an
aux_note is at most 255 bytes (its length must fit its length byte). -/
def ExtraW.ok : ExtraW → Prop
  | .wnum v => v ≤ 255
  | .wsub v => v ≤ 255
  | .wchan v => v ≤ 255
  | .waux cs => cs.length ≤ 255 ∧ ∀ b ∈ cs, b ≤ 255

/-- Byte pairs of an extra word. -/
def ExtraW.pairs : ExtraW → List BytePair
  | .wnum v => [(v, 240)]
  | .wsub v => [(v, 244)]
  | .wchan v => [(v, 248)]
  | .waux cs => (cs.length, 252) ::
      toPairs (cs ++ (if cs.length % 2 = 1 then [0] else []))

/-- One abstract annotation: a core word and its extra-field words. -/
structure AbsEvent where
  core : CoreW
  extras : List ExtraW
deriving DecidableEq, Repr

/-- Well-formedness of an abstract annotation; the `Nodup` condition
is the "at most one extra-field word per field" discipline. -/
def AbsEvent.ok (e : AbsEvent) : Prop :=
  e.core.ok ∧ (∀ w ∈ e.extras, w.ok) ∧ (e.extras.map ExtraW.tag).Nodup

/-- Byte pairs of one abstract annotation. -/
def AbsEvent.pairs (e : AbsEvent) : List BytePair :=
  e.core.pairs ++ (e.extras.map ExtraW.pairs).flatten

/-- Byte pairs of an abstract stream, ended by the zero terminator
pair. -/
def assemble (evs : List AbsEvent) : List BytePair :=
  (evs.map AbsEvent.pairs).flatten ++ [(0, 0)]

/-- Select the payload of a subtype word. -/
def subSel : ExtraW → Option Nat
  | .wsub v => some v
  | _ => none

/-- Select the payload of a chan word. -/
def chanSel : ExtraW → Option Nat
  | .wchan v => some v
  | _ => none

/-- Select the payload of a num word. -/
def numSel : ExtraW → Option Nat
  | .wnum v => some v
  | _ => none

/-- Select the payload of an aux_note word. -/
def auxSel : ExtraW → Option (List Nat)
  | .waux cs => some cs
  | _ => none

/-- The explicit subtype supplied by an annotation's extra words. -/
def AbsEvent.subVal (e : AbsEvent) : Option Nat := e.extras.findSome? subSel

/-- The explicit chan supplied by an annotation's extra words. -/
def AbsEvent.chanVal (e : AbsEvent) : Option Nat := e.extras.findSome? chanSel

/-- The explicit num supplied by an annotation's extra words. -/
def AbsEvent.numVal (e : AbsEvent) : Option Nat := e.extras.findSome? numSel

/-- The explicit aux_note bytes supplied by an annotation's extra
words. -/
def AbsEvent.auxVal (e : AbsEvent) : Option (List Nat) := e.extras.findSome? auxSel

/-- The effect of `proc_extra_field` on the accumulators and flags,
abstracted over the word (payload bytes already isolated). -/
def applyExtra (st : AnnData) (u : UpdateFlags) : ExtraW → AnnData × UpdateFlags
  | .wnum v => ({ st with num := st.num ++ [i8 v] }, { u with num := false })
  | .wsub v => ({ st with subtype := st.subtype ++ [i8 v] }, { u with subtype := false })
  | .wchan v => ({ st with chan := st.chan ++ [v] }, { u with chan := false })
  | .waux cs => ({ st with aux_note := st.aux_note ++ [String.mk (cs.map Char.ofNat)] },
                 { u with aux_note := false })

/-- Iterated `applyExtra` over an annotation's extra words. -/
def applyExtras (st : AnnData) (u : UpdateFlags) : List ExtraW → AnnData × UpdateFlags
  | [] => (st, u)
  | w :: ws => applyExtras (applyExtra st u w).1 (applyExtra st u w).2 ws

/-- Functional specification of decoding one annotation: append the
new running total and store, the explicit or default subtype and
aux_note, and the explicit or carried chan and num. -/
def stepSpec (p : AnnData × Int) (e : AbsEvent) : AnnData × Int :=
  let total := p.2 + e.core.diff
  let st := p.1
  (⟨st.sample ++ [total],
    st.label_store ++ [e.core.store],
    st.subtype ++ [match e.subVal with | some v => i8 v | none => 0],
    st.chan ++ [match e.chanVal with | some v => v | none => st.chan.getLastD 0],
    st.num ++ [match e.numVal with | some v => i8 v | none => st.num.getLastD 0],
    st.aux_note ++ [match e.auxVal with
      | some cs => String.mk (cs.map Char.ofNat)
      | none => ""]⟩, total)

/-- The bytes contributed by an optional `num` value
(`if value is not None` in `calc_core_bytes`). -/
def optNumBytes : Option Int → List Int
  | some v => field2bytes_num v
  | none => []

/-- The bytes contributed by an optional `subtype` value. -/
def optSubBytes : Option Int → List Int
  | some v => field2bytes_subtype v
  | none => []

/-- The bytes contributed by an optional `chan` value. -/
def optChanBytes : Option Int → List Int
  | some v => field2bytes_chan v
  | none => []

/-- The bytes contributed by an optional `aux_note` value. -/
def optAuxBytes : Option String → List Int
  | some s => field2bytes_aux_note s
  | none => []

/-- The abstract extra word of an optional `num` value. -/
def optNumWord : Option Int → List ExtraW
  | some v => [ExtraW.wnum (u8 v)]
  | none => []

/-- The abstract extra word of an optional `subtype` value. -/
def optSubWord : Option Int → List ExtraW
  | some v => [ExtraW.wsub (u8 v)]
  | none => []

/-- The abstract extra word of an optional `chan` value. -/
def optChanWord : Option Int → List ExtraW
  | some v => [ExtraW.wchan (u8 v)]
  | none => []

/-- The abstract extra word of an optional `aux_note` value. -/
def optAuxWord : Option String → List ExtraW
  | some s => [ExtraW.waux (s.data.map Char.toNat)]
  | none => []

/-- The store code an annotation symbol resolves to in the standard
table (0 when absent — the absent case raises in the source and is
excluded by hypothesis wherever this appears). -/
def symStore (sym : String) : Nat := (symbolToTypecode sym).getD 0

/-- The abstract core word produced by `field2bytes` for sample
difference `d` and store `c` (proof-side bridge between the byte
encoder and the stream grammar). -/
def absCoreOf (d : Int) (c : Nat) : CoreW :=
  if d > 1023 then .skip d c else .plain d.toNat c

/-- The abstract extra words produced by `calc_core_bytes` for one
annotation's compacted optional fields, in the emission order
`num, subtype, chan, aux_note`. -/
def absExtrasOf (nm sub ch : Option Int) (ax : Option String) : List ExtraW :=
  optNumWord nm ++ optSubWord sub ++ optChanWord ch ++ optAuxWord ax

/-- The abstract annotation produced by the encoder for one event. -/
def absEventOf (d : Int) (c : Nat) (nm sub ch : Option Int) (ax : Option String) :
    AbsEvent :=
  ⟨absCoreOf d c, absExtrasOf nm sub ch ax⟩

/-- The abstract stream corresponding to `coreBytesGo`'s iteration. -/
def absListOf (nm sub ch : Option (List (Option Int)))
    (ax : Option (List (Option String))) :
    List Int → List String → Nat → List AbsEvent
  | [], _, _ => []
  | _ :: _, [], _ => []
  | sd :: sds, sym :: syms, i =>
      absEventOf sd ((symbolToTypecode sym).getD 0) (compactGet nm i)
        (compactGet sub i) (compactGet ch i) (compactGet ax i) ::
        absListOf nm sub ch ax sds syms (i + 1)

/-! ### Decoder characterization on well-formed streams -/

theorem proc_extra_fields_loop_exit (fb : List BytePair) (st : AnnData)
    (u : UpdateFlags) (h : (fb.headD (0, 0)).2 / 4 ≤ 59) :
    proc_extra_fields_loop fb st u = (st, u, fb) := by
  rw [proc_extra_fields_loop]
  simp only
  rw [dif_neg]
  rintro ⟨-, h2, -⟩
  omega

theorem proc_extra_fields_loop_num (v : Nat) (fb : List BytePair)
    (st : AnnData) (u : UpdateFlags) :
    proc_extra_fields_loop ((v, 240) :: fb) st u =
      proc_extra_fields_loop fb { st with num := st.num ++ [i8 v] }
        { u with num := false } := by
  rw [proc_extra_fields_loop]
  simp [proc_extra_field]

theorem proc_extra_fields_loop_sub (v : Nat) (fb : List BytePair)
    (st : AnnData) (u : UpdateFlags) :
    proc_extra_fields_loop ((v, 244) :: fb) st u =
      proc_extra_fields_loop fb { st with subtype := st.subtype ++ [i8 v] }
        { u with subtype := false } := by
  rw [proc_extra_fields_loop]
  simp [proc_extra_field]

theorem proc_extra_fields_loop_chan (v : Nat) (fb : List BytePair)
    (st : AnnData) (u : UpdateFlags) :
    proc_extra_fields_loop ((v, 248) :: fb) st u =
      proc_extra_fields_loop fb { st with chan := st.chan ++ [v] }
        { u with chan := false } := by
  rw [proc_extra_fields_loop]
  simp [proc_extra_field]

theorem toPairs_length_even (l : List Nat) (h : l.length % 2 = 0) :
    (toPairs l).length = l.length / 2 := by
  induction l using toPairs.induct with
  | case1 => simp [toPairs]
  | case2 b => simp at h
  | case3 b0 b1 rest ih =>
      simp only [toPairs, List.length_cons] at *
      rw [ih (by omega)]
      omega

theorem toPairs_flat_even (l : List Nat) (h : l.length % 2 = 0) :
    ((toPairs l).flatMap (fun p => [p.1, p.2])) = l := by
  induction l using toPairs.induct with
  | case1 => simp [toPairs]
  | case2 b => simp at h
  | case3 b0 b1 rest ih =>
      simp only [toPairs, List.flatMap_cons, List.length_cons] at *
      rw [ih (by omega)]
      rfl

theorem proc_extra_fields_loop_aux (cs : List Nat) (fb : List BytePair)
    (st : AnnData) (u : UpdateFlags) :
    proc_extra_fields_loop ((cs.length, 252) ::
        (toPairs (cs ++ (if cs.length % 2 = 1 then [0] else [])) ++ fb)) st u =
      proc_extra_fields_loop fb
        { st with aux_note := st.aux_note ++ [String.mk (cs.map Char.ofNat)] }
        { u with aux_note := false } := by
  have hpadlen : (cs ++ (if cs.length % 2 = 1 then [0] else [])).length % 2 = 0 := by
    by_cases h2 : cs.length % 2 = 1
    · simp only [if_pos h2, List.length_append, List.length_cons, List.length_nil]
      omega
    · simp only [if_neg h2, List.length_append, List.length_nil]
      omega
  have hlen : (toPairs (cs ++ (if cs.length % 2 = 1 then [0] else []))).length
      = (cs.length + 1) / 2 := by
    rw [toPairs_length_even _ hpadlen]
    by_cases h2 : cs.length % 2 = 1
    · simp only [if_pos h2, List.length_append, List.length_cons, List.length_nil] <;> omega
    · simp only [if_neg h2, List.length_append, List.length_nil] <;> omega
  have hbody : proc_extra_field 63 ((cs.length, 252) ::
      (toPairs (cs ++ (if cs.length % 2 = 1 then [0] else [])) ++ fb)) st u =
      ({ st with aux_note := st.aux_note ++ [String.mk (cs.map Char.ofNat)] },
       { u with aux_note := false }, fb) := by
    unfold proc_extra_field
    simp only [if_neg (by norm_num : (63 : Nat) ≠ 61),
      if_neg (by norm_num : (63 : Nat) ≠ 62),
      if_neg (by norm_num : (63 : Nat) ≠ 60), if_pos rfl]
    simp only [List.headD_cons, List.drop_succ_cons, List.drop_zero]
    rw [show (1 + (cs.length + 1) / 2) = ((cs.length + 1) / 2) + 1 by omega]
    simp only [List.drop_succ_cons]
    rw [← hlen, List.take_left, List.drop_left]
    rw [toPairs_flat_even _ hpadlen]
    rcases Nat.even_or_odd cs.length with he | ho
    · have h2 : cs.length % 2 ≠ 1 := by
        rw [Nat.even_iff] at he
        omega
      simp [h2]
    · have h2 : cs.length % 2 = 1 := Nat.odd_iff.mp ho
      simp [h2, List.dropLast_concat]
  have htag : ((((cs.length, 252) ::
      (toPairs (cs ++ (if cs.length % 2 = 1 then [0] else [])) ++ fb)).headD
        (0, 0)).2 : Nat) / 4 = 63 := by
    simp
  rw [proc_extra_fields_loop]
  simp only
  rw [dif_pos (by exact ⟨by simp, by rw [htag]; omega, by rw [htag]⟩)]
  rw [htag, hbody]

theorem proc_extras_assemble (ws : List ExtraW) (rest : List BytePair)
    (st : AnnData) (u : UpdateFlags)
    (hrest : (rest.headD (0, 0)).2 / 4 ≤ 59) :
    proc_extra_fields_loop ((ws.map ExtraW.pairs).flatten ++ rest) st u =
      ((applyExtras st u ws).1, (applyExtras st u ws).2, rest) := by
  induction ws generalizing st u with
  | nil => simpa [applyExtras] using proc_extra_fields_loop_exit rest st u hrest
  | cons w ws ih =>
      cases w with
      | wnum v =>
          simp only [List.map_cons, List.flatten_cons, ExtraW.pairs, List.cons_append,
            List.nil_append, List.append_assoc]
          rw [proc_extra_fields_loop_num, ih]
          simp [applyExtras, applyExtra]
      | wsub v =>
          simp only [List.map_cons, List.flatten_cons, ExtraW.pairs, List.cons_append,
            List.nil_append, List.append_assoc]
          rw [proc_extra_fields_loop_sub, ih]
          simp [applyExtras, applyExtra]
      | wchan v =>
          simp only [List.map_cons, List.flatten_cons, ExtraW.pairs, List.cons_append,
            List.nil_append, List.append_assoc]
          rw [proc_extra_fields_loop_chan, ih]
          simp [applyExtras, applyExtra]
      | waux cs =>
          simp only [List.map_cons, List.flatten_cons, ExtraW.pairs, List.cons_append,
            List.append_assoc]
          rw [proc_extra_fields_loop_aux, ih]
          simp [applyExtras, applyExtra]

theorem proc_core_fields_plain (d c : Nat) (hd : d ≤ 1023) (hc : c ≤ 58)
    (rest : List BytePair) :
    proc_core_fields ((d % 256, d / 256 + 4 * c) :: rest) = ((d : Int), c, rest) := by
  unfold proc_core_fields
  simp only [List.headD_cons, List.drop_succ_cons, List.drop_zero]
  rw [if_pos (by omega : ((d % 256, d / 256 + 4 * c) : BytePair).2 / 4 ≠ 59)]
  simp only [Prod.mk.injEq]
  refine ⟨by push_cast; omega, by omega, trivial⟩

theorem proc_core_fields_skip (d : Int) (c : Nat) (h1 : -2147483648 ≤ d)
    (h2 : d ≤ 2147483647) (hc : c ≤ 58) (rest : List BytePair) :
    proc_core_fields ((CoreW.skip d c).pairs ++ rest) = (d, c, rest) := by
  have hu : ((u32 d : Nat) : Int) = d % 4294967296 := by
    simp only [u32]
    omega
  unfold CoreW.pairs proc_core_fields
  simp only [List.cons_append, List.nil_append, List.headD_cons]
  rw [if_neg (by omega : ¬((0, 236) : BytePair).2 / 4 ≠ 59)]
  have g1 : (((0, 236) : BytePair) :: (((u32 d / 65536) % 256, u32 d / 16777216) : BytePair) ::
      ((u32 d % 256, (u32 d / 256) % 256) : BytePair) :: ((0, 4 * c) : BytePair) :: rest).getD 1 (0, 0)
      = ((u32 d / 65536) % 256, u32 d / 16777216) := rfl
  have g2 : (((0, 236) : BytePair) :: (((u32 d / 65536) % 256, u32 d / 16777216) : BytePair) ::
      ((u32 d % 256, (u32 d / 256) % 256) : BytePair) :: ((0, 4 * c) : BytePair) :: rest).getD 2 (0, 0)
      = (u32 d % 256, (u32 d / 256) % 256) := rfl
  have g3 : (((0, 236) : BytePair) :: (((u32 d / 65536) % 256, u32 d / 16777216) : BytePair) ::
      ((u32 d % 256, (u32 d / 256) % 256) : BytePair) :: ((0, 4 * c) : BytePair) :: rest).getD 3 (0, 0)
      = (0, 4 * c) := rfl
  have g4 : (((0, 236) : BytePair) :: (((u32 d / 65536) % 256, u32 d / 16777216) : BytePair) ::
      ((u32 d % 256, (u32 d / 256) % 256) : BytePair) :: ((0, 4 * c) : BytePair) :: rest).drop 4
      = rest := rfl
  rw [g1, g2, g3, g4]
  simp only [Prod.mk.injEq]
  refine ⟨?_, by omega, trivial⟩
  split_ifs with hbig <;> push_cast <;> omega

theorem findSome?_subSel_none (ws : List ExtraW) (h : 61 ∉ ws.map ExtraW.tag) :
    ws.findSome? subSel = none := by
  induction ws with
  | nil => rfl
  | cons w ws ih =>
      simp only [List.map_cons, List.mem_cons] at h
      push_neg at h
      cases w <;> simp_all [List.findSome?_cons, subSel, ExtraW.tag]

theorem findSome?_chanSel_none (ws : List ExtraW) (h : 62 ∉ ws.map ExtraW.tag) :
    ws.findSome? chanSel = none := by
  induction ws with
  | nil => rfl
  | cons w ws ih =>
      simp only [List.map_cons, List.mem_cons] at h
      push_neg at h
      cases w <;> simp_all [List.findSome?_cons, chanSel, ExtraW.tag]

theorem findSome?_numSel_none (ws : List ExtraW) (h : 60 ∉ ws.map ExtraW.tag) :
    ws.findSome? numSel = none := by
  induction ws with
  | nil => rfl
  | cons w ws ih =>
      simp only [List.map_cons, List.mem_cons] at h
      push_neg at h
      cases w <;> simp_all [List.findSome?_cons, numSel, ExtraW.tag]

theorem findSome?_auxSel_none (ws : List ExtraW) (h : 63 ∉ ws.map ExtraW.tag) :
    ws.findSome? auxSel = none := by
  induction ws with
  | nil => rfl
  | cons w ws ih =>
      simp only [List.map_cons, List.mem_cons] at h
      push_neg at h
      cases w <;> simp_all [List.findSome?_cons, auxSel, ExtraW.tag]

theorem applyExtras_spec (ws : List ExtraW) (st : AnnData) (u : UpdateFlags)
    (hnd : (ws.map ExtraW.tag).Nodup) :
    applyExtras st u ws =
      (⟨st.sample, st.label_store,
        st.subtype ++ (((ws.findSome? subSel).map (fun v => [i8 v])).getD []),
        st.chan ++ (((ws.findSome? chanSel).map (fun v => [v])).getD []),
        st.num ++ (((ws.findSome? numSel).map (fun v => [i8 v])).getD []),
        st.aux_note ++ (((ws.findSome? auxSel).map
          (fun cs => [String.mk (cs.map Char.ofNat)])).getD [])⟩,
       ⟨u.subtype && (ws.findSome? subSel).isNone,
        u.chan && (ws.findSome? chanSel).isNone,
        u.num && (ws.findSome? numSel).isNone,
        u.aux_note && (ws.findSome? auxSel).isNone⟩) := by
  induction ws generalizing st u with
  | nil => simp [applyExtras]
  | cons w ws ih =>
      simp only [List.map_cons, List.nodup_cons] at hnd
      obtain ⟨hw, hnd'⟩ := hnd
      cases w with
      | wnum v =>
          have hn : ws.findSome? numSel = none :=
            findSome?_numSel_none ws (by simpa [ExtraW.tag] using hw)
          simp [applyExtras, applyExtra, ih _ _ hnd', List.findSome?_cons,
            subSel, chanSel, numSel, auxSel, hn]
      | wsub v =>
          have hn : ws.findSome? subSel = none :=
            findSome?_subSel_none ws (by simpa [ExtraW.tag] using hw)
          simp [applyExtras, applyExtra, ih _ _ hnd', List.findSome?_cons,
            subSel, chanSel, numSel, auxSel, hn]
      | wchan v =>
          have hn : ws.findSome? chanSel = none :=
            findSome?_chanSel_none ws (by simpa [ExtraW.tag] using hw)
          simp [applyExtras, applyExtra, ih _ _ hnd', List.findSome?_cons,
            subSel, chanSel, numSel, auxSel, hn]
      | waux cs =>
          have hn : ws.findSome? auxSel = none :=
            findSome?_auxSel_none ws (by simpa [ExtraW.tag] using hw)
          simp [applyExtras, applyExtra, ih _ _ hnd', List.findSome?_cons,
            subSel, chanSel, numSel, auxSel, hn]

theorem update_applyExtras_stepSpec (e : AbsEvent)
    (hnd : (e.extras.map ExtraW.tag).Nodup) (st : AnnData) (total : Int) :
    update_extra_fields
      (applyExtras
        { st with sample := st.sample ++ [total + e.core.diff],
                  label_store := st.label_store ++ [e.core.store] }
        ⟨true, true, true, true⟩ e.extras).1
      (applyExtras
        { st with sample := st.sample ++ [total + e.core.diff],
                  label_store := st.label_store ++ [e.core.store] }
        ⟨true, true, true, true⟩ e.extras).2
      = (stepSpec (st, total) e).1 := by
  rw [applyExtras_spec _ _ _ hnd]
  unfold update_extra_fields stepSpec
  simp only [AbsEvent.subVal, AbsEvent.chanVal, AbsEvent.numVal, AbsEvent.auxVal]
  cases e.extras.findSome? subSel <;> cases e.extras.findSome? chanSel <;>
    cases e.extras.findSome? numSel <;> cases e.extras.findSome? auxSel <;>
    simp

theorem absEvent_pairs_ne_nil (e : AbsEvent) : e.pairs ≠ [] := by
  unfold AbsEvent.pairs
  cases e.core <;> simp [CoreW.pairs]

theorem absEvent_pairs_head_tag (e : AbsEvent) (he : e.ok) :
    ((e.pairs).headD (0, 0)).2 / 4 ≤ 59 := by
  obtain ⟨core, extras⟩ := e
  obtain ⟨hc, -, -⟩ := he
  cases core with
  | plain d c =>
      simp only [CoreW.ok] at hc
      simp only [AbsEvent.pairs, CoreW.pairs, List.cons_append, List.headD_cons]
      omega
  | skip d c =>
      simp [AbsEvent.pairs, CoreW.pairs]

theorem headD_append_of_ne_nil (l l' : List BytePair) (h : l ≠ []) :
    (l ++ l').headD (0, 0) = l.headD (0, 0) := by
  cases l with
  | nil => exact absurd rfl h
  | cons a t => rfl

theorem extract_loop_event (e : AbsEvent) (he : e.ok) (rest : List BytePair)
    (hne : rest ≠ []) (hrest : (rest.headD (0, 0)).2 / 4 ≤ 59)
    (total : Int) (st : AnnData) :
    extract_ann_data_loop (e.pairs ++ rest) total st none =
      extract_ann_data_loop rest (total + e.core.diff) (stepSpec (st, total) e).1 none := by
  have hlen : ¬ (e.pairs ++ rest).length ≤ 1 := by
    have h1 : 1 ≤ e.pairs.length := List.length_pos.mpr (absEvent_pairs_ne_nil e)
    have h2 : 1 ≤ rest.length := List.length_pos.mpr hne
    simp only [List.length_append]
    omega
  have hcore : proc_core_fields (e.pairs ++ rest) =
      (e.core.diff, e.core.store, (e.extras.map ExtraW.pairs).flatten ++ rest) := by
    obtain ⟨core, extras⟩ := e
    obtain ⟨hc, -, -⟩ := he
    cases core with
    | plain d c =>
        simp only [CoreW.ok] at hc
        simpa [AbsEvent.pairs, CoreW.pairs, CoreW.diff, CoreW.store] using
          proc_core_fields_plain d c hc.1 hc.2
            ((extras.map ExtraW.pairs).flatten ++ rest)
    | skip d c =>
        simp only [CoreW.ok] at hc
        simp only [AbsEvent.pairs, List.append_assoc]
        simpa [CoreW.diff, CoreW.store] using
          proc_core_fields_skip d c hc.1 hc.2.1 hc.2.2
            ((extras.map ExtraW.pairs).flatten ++ rest)
  rw [extract_ann_data_loop]
  rw [dif_neg hlen]
  simp only [hcore]
  rw [proc_extras_assemble _ _ _ _ hrest]
  simp only
  rw [update_applyExtras_stepSpec e he.2.2 st total]

theorem extract_loop_assemble (evs : List AbsEvent) (st : AnnData) (total : Int)
    (h : ∀ e ∈ evs, e.ok) :
    extract_ann_data_loop (assemble evs) total st none =
      (evs.foldl stepSpec (st, total)).1 := by
  induction evs generalizing st total with
  | nil =>
      rw [extract_ann_data_loop]
      simp [assemble]
  | cons e evs ih =>
      have he : e.ok := h e (List.mem_cons_self e evs)
      have h' : ∀ e' ∈ evs, e'.ok := fun e' he' => h e' (List.mem_cons_of_mem e he')
      have hassemble : assemble (e :: evs) = e.pairs ++ assemble evs := by
        simp [assemble, List.append_assoc]
      have hne : assemble evs ≠ [] := by
        simp [assemble]
      have hhead : ((assemble evs).headD (0, 0)).2 / 4 ≤ 59 := by
        cases evs with
        | nil => simp [assemble]
        | cons e' evs' =>
            have he' : e'.ok := h' e' (List.mem_cons_self e' evs')
            have : assemble (e' :: evs') = e'.pairs ++ assemble evs' := by
              simp [assemble, List.append_assoc]
            rw [this, headD_append_of_ne_nil _ _ (absEvent_pairs_ne_nil e')]
            exact absEvent_pairs_head_tag e' he'
      rw [hassemble, extract_loop_event e he _ hne hhead total st]
      rw [ih _ _ h']
      simp only [List.foldl_cons]
      congr 1

/-! ### The byte encoder produces well-formed abstract streams -/

theorem u8_natCast (x : Nat) : u8 (x : Int) = x % 256 := by
  unfold u8
  omega

theorem u8_natCast_of_le (x : Nat) (h : x ≤ 255) : u8 (x : Int) = x := by
  unfold u8
  omega

theorem toPairs_append_even (a b : List Nat) (h : a.length % 2 = 0) :
    toPairs (a ++ b) = toPairs a ++ toPairs b := by
  induction a using toPairs.induct with
  | case1 => simp [toPairs]
  | case2 x => simp at h
  | case3 x y rest ih =>
      simp only [toPairs, List.cons_append, List.append_eq, List.length_cons] at *
      rw [ih (by omega)]

theorem symbolToTypecode_bounds (sym : String) (c : Nat)
    (h : symbolToTypecode sym = some c) : 1 ≤ c ∧ c ≤ 49 := by
  unfold symbolToTypecode at h
  cases hfind : ANN_LABELS.find? (fun r => r.symbol = sym) with
  | none =>
      rw [hfind] at h
      exact absurd h (by simp)
  | some row =>
      rw [hfind] at h
      simp at h
      have hmem : row ∈ ANN_LABELS := List.mem_of_find?_eq_some hfind
      have hall : ∀ r ∈ ANN_LABELS, 1 ≤ r.label_store ∧ r.label_store ≤ 49 := by decide
      rw [← h]
      exact hall row hmem

theorem num_chunk_pairs (v : Int) :
    (field2bytes_num v).length % 2 = 0 ∧
      toPairs ((field2bytes_num v).map u8) = (ExtraW.wnum (u8 v)).pairs := by
  exact ⟨by simp [field2bytes_num], rfl⟩

theorem sub_chunk_pairs (v : Int) :
    (field2bytes_subtype v).length % 2 = 0 ∧
      toPairs ((field2bytes_subtype v).map u8) = (ExtraW.wsub (u8 v)).pairs := by
  exact ⟨by simp [field2bytes_subtype], rfl⟩

theorem chan_chunk_pairs (v : Int) :
    (field2bytes_chan v).length % 2 = 0 ∧
      toPairs ((field2bytes_chan v).map u8) = (ExtraW.wchan (u8 v)).pairs := by
  exact ⟨by simp [field2bytes_chan], rfl⟩

theorem aux_chunk_pairs (s : String) (hlen : s.length ≤ 255)
    (hch : ∀ c ∈ s.data, c.toNat ≤ 255) :
    (field2bytes_aux_note s).length % 2 = 0 ∧
      toPairs ((field2bytes_aux_note s).map u8) =
        (ExtraW.waux (s.data.map Char.toNat)).pairs := by
  have hmap : s.data.map (fun c => u8 ((c.toNat : Nat) : Int)) = s.data.map Char.toNat :=
    List.map_congr_left (fun c hc => u8_natCast_of_le _ (hch c hc))
  have hslen : s.length = s.data.length := rfl
  constructor
  · unfold field2bytes_aux_note
    by_cases h2 : s.length % 2 = 1
    · simp only [if_pos h2, List.length_append, List.length_cons, List.length_nil,
        List.length_map]
      omega
    · simp only [if_neg h2, List.length_append, List.length_cons, List.length_nil,
        List.length_map]
      omega
  · unfold field2bytes_aux_note ExtraW.pairs
    simp only [List.map_append, List.map_cons, List.map_nil, List.map_map]
    rw [u8_natCast_of_le _ hlen]
    have h252 : u8 252 = 252 := rfl
    have h0 : u8 0 = 0 := rfl
    rw [h252]
    have hcomp : s.data.map (u8 ∘ fun c => ((c.toNat : Nat) : Int)) = s.data.map Char.toNat := by
      rw [← hmap]
      rfl
    rw [hcomp]
    have hlenmap : (s.data.map Char.toNat).length = s.length := by
      rw [List.length_map]
      exact hslen.symm
    rw [hlenmap]
    simp only [List.cons_append, toPairs]
    congr 1
    by_cases h2 : s.length % 2 = 1
    · simp [h2, h0]
    · simp [h2]

theorem samptype_plain_pairs (d : Int) (c : Nat) (hd0 : 0 ≤ d) (hd1 : ¬ d > 1023)
    (hc : c ≤ 49) :
    ([d % 256, d % 1024 / 256 + 4 * (c : Int)].map u8) =
      [(d.toNat % 256 : Nat), d.toNat / 256 + 4 * c] ∧
    toPairs [(d.toNat % 256 : Nat), d.toNat / 256 + 4 * c] =
      (CoreW.plain d.toNat c).pairs := by
  constructor
  · simp only [List.map_cons, List.map_nil, List.cons.injEq, and_true]
    refine ⟨by unfold u8; omega, by unfold u8; omega⟩
  · rfl

theorem samptype_skip_pairs (d : Int) (c : Nat) (hd1 : d > 1023)
    (hd2 : d ≤ 2147483647) (hc : c ≤ 49) :
    ([(0 : Int), 236, ((u32 d % 16777216) / 65536 : Nat), ((u32 d) / 16777216 : Nat),
      ((u32 d % 256 : Nat) : Int), ((u32 d % 65536) / 256 : Nat), 0,
      4 * (c : Int)].map u8) =
      [0, 236, (u32 d / 65536) % 256, u32 d / 16777216, u32 d % 256,
       (u32 d / 256) % 256, 0, 4 * c] ∧
    toPairs [0, 236, (u32 d / 65536) % 256, u32 d / 16777216, u32 d % 256,
       (u32 d / 256) % 256, 0, 4 * c] = (CoreW.skip d c).pairs := by
  have hu32 : u32 d < 4294967296 := by
    unfold u32
    omega
  constructor
  · simp only [List.map_cons, List.map_nil]
    rw [show u8 0 = 0 from rfl, show u8 236 = 236 from rfl]
    rw [u8_natCast_of_le _ (by omega), u8_natCast_of_le _ (by omega),
      u8_natCast_of_le _ (by omega), u8_natCast_of_le _ (by omega)]
    rw [show ((4 * (c : Int))) = (((4 * c : Nat) : Int)) by push_cast; ring,
      u8_natCast_of_le _ (by omega)]
    simp only [List.cons.injEq, and_true, true_and]
    refine ⟨by omega, by omega⟩
  · rfl

theorem map_u8_pairs_append (a b : List Int) (ha : a.length % 2 = 0) :
    toPairs ((a ++ b).map u8) = toPairs (a.map u8) ++ toPairs (b.map u8) := by
  rw [List.map_append, toPairs_append_even]
  simpa using ha

theorem opt_num_pairs (nm : Option Int) :
    (optNumBytes nm).length % 2 = 0 ∧
    toPairs ((optNumBytes nm).map u8) = ((optNumWord nm).map ExtraW.pairs).flatten := by
  cases nm with
  | none => exact ⟨rfl, rfl⟩
  | some v => simpa [optNumBytes, optNumWord] using num_chunk_pairs v

theorem opt_sub_pairs (sub : Option Int) :
    (optSubBytes sub).length % 2 = 0 ∧
    toPairs ((optSubBytes sub).map u8) = ((optSubWord sub).map ExtraW.pairs).flatten := by
  cases sub with
  | none => exact ⟨rfl, rfl⟩
  | some v => simpa [optSubBytes, optSubWord] using sub_chunk_pairs v

theorem opt_chan_pairs (ch : Option Int) :
    (optChanBytes ch).length % 2 = 0 ∧
    toPairs ((optChanBytes ch).map u8) = ((optChanWord ch).map ExtraW.pairs).flatten := by
  cases ch with
  | none => exact ⟨rfl, rfl⟩
  | some v => simpa [optChanBytes, optChanWord] using chan_chunk_pairs v

theorem opt_aux_pairs (ax : Option String)
    (haxlen : ∀ s, ax = some s → s.length ≤ 255)
    (haxch : ∀ s, ax = some s → ∀ c ∈ s.data, c.toNat ≤ 255) :
    (optAuxBytes ax).length % 2 = 0 ∧
    toPairs ((optAuxBytes ax).map u8) = ((optAuxWord ax).map ExtraW.pairs).flatten := by
  cases ax with
  | none => exact ⟨rfl, rfl⟩
  | some s =>
      simpa [optAuxBytes, optAuxWord] using aux_chunk_pairs s (haxlen s rfl) (haxch s rfl)

theorem u8_le (x : Int) : u8 x ≤ 255 := by
  unfold u8
  omega

theorem absEventOf_ok (d : Int) (c : Nat) (nm sub ch : Option Int) (ax : Option String)
    (hd0 : 0 ≤ d) (hd1 : d ≤ 2147483647) (hc : c ≤ 49)
    (haxlen : ∀ s, ax = some s → s.length ≤ 255)
    (haxch : ∀ s, ax = some s → ∀ c' ∈ s.data, c'.toNat ≤ 255) :
    (absEventOf d c nm sub ch ax).ok := by
  refine ⟨?_, ?_, ?_⟩
  · show (absCoreOf d c).ok
    unfold absCoreOf
    split_ifs with hbig
    · exact ⟨by omega, by omega, by omega⟩
    · exact ⟨by omega, by omega⟩
  · intro w hw
    have hw' : w ∈ optNumWord nm ∨ w ∈ optSubWord sub ∨ w ∈ optChanWord ch ∨
        w ∈ optAuxWord ax := by
      simpa [absEventOf, absExtrasOf, List.mem_append, or_assoc] using hw
    rcases hw' with hw' | hw' | hw' | hw'
    · cases nm with
      | none => simp [optNumWord] at hw'
      | some v =>
          simp only [optNumWord, List.mem_singleton] at hw'
          subst hw'
          exact u8_le v
    · cases sub with
      | none => simp [optSubWord] at hw'
      | some v =>
          simp only [optSubWord, List.mem_singleton] at hw'
          subst hw'
          exact u8_le v
    · cases ch with
      | none => simp [optChanWord] at hw'
      | some v =>
          simp only [optChanWord, List.mem_singleton] at hw'
          subst hw'
          exact u8_le v
    · cases ax with
      | none => simp [optAuxWord] at hw'
      | some s =>
          simp only [optAuxWord, List.mem_singleton] at hw'
          subst hw'
          refine ⟨by simpa using haxlen s rfl, ?_⟩
          intro b hb
          simp only [List.mem_map] at hb
          obtain ⟨ch', hch', rfl⟩ := hb
          exact haxch s rfl ch' hch'
  · show ((absExtrasOf nm sub ch ax).map ExtraW.tag).Nodup
    unfold absExtrasOf optNumWord optSubWord optChanWord optAuxWord
    cases nm <;> cases sub <;> cases ch <;> cases ax <;> simp [ExtraW.tag]

theorem eventBytes_pairs (d : Int) (sym : String) (c : Nat)
    (hsym : symbolToTypecode sym = some c)
    (hd0 : 0 ≤ d) (hd1 : d ≤ 2147483647)
    (nm sub ch : Option Int) (ax : Option String)
    (haxlen : ∀ s, ax = some s → s.length ≤ 255)
    (haxch : ∀ s, ax = some s → ∀ c' ∈ s.data, c'.toNat ≤ 255) :
    ∃ bs, eventBytes d sym nm sub ch ax = some bs ∧ bs.length % 2 = 0 ∧
      toPairs (bs.map u8) = (absEventOf d c nm sub ch ax).pairs := by
  obtain ⟨hc1, hc49⟩ := symbolToTypecode_bounds sym c hsym
  have hsampt : field2bytes_samptype d sym = some (if d > 1023 then
      [(0 : Int), 236, ((u32 d % 16777216) / 65536 : Nat), ((u32 d) / 16777216 : Nat),
       ((u32 d % 256 : Nat) : Int), ((u32 d % 65536) / 256 : Nat), 0, 4 * (c : Int)]
    else [d % 256, d % 1024 / 256 + 4 * (c : Int)]) := by
    unfold field2bytes_samptype
    rw [hsym]
    rfl
  have hev : eventBytes d sym nm sub ch ax = some ((if d > 1023 then
      [(0 : Int), 236, ((u32 d % 16777216) / 65536 : Nat), ((u32 d) / 16777216 : Nat),
       ((u32 d % 256 : Nat) : Int), ((u32 d % 65536) / 256 : Nat), 0, 4 * (c : Int)]
    else [d % 256, d % 1024 / 256 + 4 * (c : Int)]) ++
      (optNumBytes nm ++ (optSubBytes sub ++ (optChanBytes ch ++ optAuxBytes ax)))) := by
    unfold eventBytes
    rw [hsampt]
    cases nm <;> cases sub <;> cases ch <;> cases ax <;>
      simp [optNumBytes, optSubBytes, optChanBytes, optAuxBytes, List.append_assoc]
  obtain ⟨enm, pnm⟩ := opt_num_pairs nm
  obtain ⟨esub, psub⟩ := opt_sub_pairs sub
  obtain ⟨ech, pch⟩ := opt_chan_pairs ch
  obtain ⟨eax, pax⟩ := opt_aux_pairs ax haxlen haxch
  refine ⟨_, hev, ?_, ?_⟩
  · simp only [List.length_append]
    split_ifs <;> simp only [List.length_cons, List.length_nil] <;> omega
  · have hextras : toPairs ((optNumBytes nm ++
        (optSubBytes sub ++ (optChanBytes ch ++ optAuxBytes ax))).map u8) =
        ((absExtrasOf nm sub ch ax).map ExtraW.pairs).flatten := by
      rw [map_u8_pairs_append _ _ enm, map_u8_pairs_append _ _ esub,
        map_u8_pairs_append _ _ ech, pnm, psub, pch, pax]
      unfold absExtrasOf
      simp [List.map_append, List.flatten_append, List.append_assoc]
    by_cases hbig : d > 1023
    · rw [if_pos hbig]
      rw [map_u8_pairs_append _ _ (by simp)]
      obtain ⟨m1, m2⟩ := samptype_skip_pairs d c hbig hd1 hc49
      rw [m1, m2, hextras]
      have : absEventOf d c nm sub ch ax =
          ⟨CoreW.skip d c, absExtrasOf nm sub ch ax⟩ := by
        unfold absEventOf absCoreOf
        rw [if_pos hbig]
      rw [this]
      rfl
    · rw [if_neg hbig]
      rw [map_u8_pairs_append _ _ (by simp)]
      obtain ⟨m1, m2⟩ := samptype_plain_pairs d c hd0 hbig hc49
      rw [m1, m2, hextras]
      have : absEventOf d c nm sub ch ax =
          ⟨CoreW.plain d.toNat c, absExtrasOf nm sub ch ax⟩ := by
        unfold absEventOf absCoreOf
        rw [if_neg hbig]
      rw [this]
      rfl

theorem assemble_cons (e : AbsEvent) (evs : List AbsEvent) :
    assemble (e :: evs) = e.pairs ++ assemble evs := by
  simp [assemble, List.append_assoc]

theorem i8_u8 (v : Int) (h0 : 0 ≤ v) (h1 : v ≤ 127) : i8 (u8 v) = v := by
  unfold i8 u8
  split_ifs <;> omega

theorem u8_eq_toNat (v : Int) (h0 : 0 ≤ v) (h1 : v ≤ 255) : u8 v = v.toNat := by
  unfold u8
  omega

theorem absCoreOf_store (d : Int) (c : Nat) : (absCoreOf d c).store = c := by
  unfold absCoreOf
  split_ifs <;> rfl

theorem absCoreOf_diff (d : Int) (c : Nat) (h : 0 ≤ d) : (absCoreOf d c).diff = d := by
  unfold absCoreOf
  split_ifs <;> simp [CoreW.diff] <;> omega

theorem absEventOf_numVal (d : Int) (c : Nat) (nm sub ch : Option Int)
    (ax : Option String) :
    (absEventOf d c nm sub ch ax).numVal = nm.map (fun v => u8 v) := by
  cases nm <;> cases sub <;> cases ch <;> cases ax <;>
    simp [absEventOf, absExtrasOf, optNumWord, optSubWord, optChanWord, optAuxWord,
      AbsEvent.numVal, List.findSome?_append, List.findSome?_cons, numSel]

theorem absEventOf_subVal (d : Int) (c : Nat) (nm sub ch : Option Int)
    (ax : Option String) :
    (absEventOf d c nm sub ch ax).subVal = sub.map (fun v => u8 v) := by
  cases nm <;> cases sub <;> cases ch <;> cases ax <;>
    simp [absEventOf, absExtrasOf, optNumWord, optSubWord, optChanWord, optAuxWord,
      AbsEvent.subVal, List.findSome?_append, List.findSome?_cons, subSel]

theorem absEventOf_chanVal (d : Int) (c : Nat) (nm sub ch : Option Int)
    (ax : Option String) :
    (absEventOf d c nm sub ch ax).chanVal = ch.map (fun v => u8 v) := by
  cases nm <;> cases sub <;> cases ch <;> cases ax <;>
    simp [absEventOf, absExtrasOf, optNumWord, optSubWord, optChanWord, optAuxWord,
      AbsEvent.chanVal, List.findSome?_append, List.findSome?_cons, chanSel]

theorem absEventOf_auxVal (d : Int) (c : Nat) (nm sub ch : Option Int)
    (ax : Option String) :
    (absEventOf d c nm sub ch ax).auxVal = ax.map (fun s => s.data.map Char.toNat) := by
  cases nm <;> cases sub <;> cases ch <;> cases ax <;>
    simp [absEventOf, absExtrasOf, optNumWord, optSubWord, optChanWord, optAuxWord,
      AbsEvent.auxVal, List.findSome?_append, List.findSome?_cons, auxSel]

theorem string_mk_map_toNat (s : String) :
    String.mk ((s.data.map Char.toNat).map Char.ofNat) = s := by
  rw [List.map_map]
  have h : s.data.map (Char.ofNat ∘ Char.toNat) = s.data.map id :=
    List.map_congr_left (fun ch _ => Char.ofNat_toNat ch)
  rw [h, List.map_id]

theorem calc_sampdiff_length (l : List Int) : (calc_sampdiff l).length = l.length := by
  cases l with
  | nil => rfl
  | cons s0 rest =>
      simp [calc_sampdiff, List.length_zipWith]

theorem calc_sampdiff_getD (l : List Int) (i : Nat) (hi : i < l.length) :
    (calc_sampdiff l).getD i 0 =
      if i = 0 then l.getD 0 0 else l.getD i 0 - l.getD (i - 1) 0 := by
  cases l with
  | nil => simp at hi
  | cons s0 rest =>
      cases i with
      | zero => simp [calc_sampdiff]
      | succ j =>
          have hj : j < rest.length := by simpa using hi
          have hzlen : j < (List.zipWith (fun b a => b - a) rest (s0 :: rest)).length := by
            rw [List.length_zipWith]
            simp
            omega
          rw [if_neg (by omega : ¬ j + 1 = 0)]
          show (s0 :: List.zipWith (fun b a => b - a) rest (s0 :: rest)).getD (j + 1) 0 = _
          rw [List.getD_cons_succ, List.getD_eq_getElem _ _ hzlen, List.getElem_zipWith]
          rw [List.getD_eq_getElem _ _ hi,
            List.getD_eq_getElem _ _ (by simpa using Nat.lt_succ_of_lt hj :
              j + 1 - 1 < (s0 :: rest).length)]
          simp

theorem getLastD_take {α : Type} (l : List α) (i : Nat) (d : α) (h1 : 0 < i)
    (h2 : i ≤ l.length) : (l.take i).getLastD d = l.getD (i - 1) d := by
  induction l generalizing i d with
  | nil =>
      simp at h2
      omega
  | cons a t ih =>
      cases i with
      | zero => omega
      | succ j =>
          cases j with
          | zero => simp
          | succ k =>
              have h2' : k + 1 ≤ t.length := by
                simp at h2
                omega
              have hk : k < t.length := by omega
              rw [List.take_succ_cons, List.getLastD_cons,
                ih (k + 1) a (by omega) h2']
              show t.getD (k + 1 - 1) a = (a :: t).getD (k + 1 + 1 - 1) d
              have e1 : k + 1 - 1 = k := by omega
              have e2 : k + 1 + 1 - 1 = k + 1 := by omega
              rw [e1, e2, List.getD_cons_succ, List.getD_eq_getElem _ _ hk,
                List.getD_eq_getElem _ _ hk]

theorem compactCarryGo_length (p : Int) (l : List Int) :
    (compactCarryGo p l).length = l.length := by
  induction l generalizing p with
  | nil => rfl
  | cons v rest ih =>
      unfold compactCarryGo
      split_ifs <;> simp [ih]

theorem compactCarryGo_getD (l : List Int) (p : Int) (i : Nat) (hi : i < l.length) :
    (compactCarryGo p l).getD i none =
      if l.getD i 0 = (if i = 0 then p else l.getD (i - 1) 0) then none
      else some (l.getD i 0) := by
  induction l generalizing p i with
  | nil => simp at hi
  | cons v rest ih =>
      unfold compactCarryGo
      by_cases h1 : v = p
      · subst h1
        rw [if_neg (by simp)]
        cases i with
        | zero => simp
        | succ j =>
            have hj : j < rest.length := by simpa using hi
            rw [List.getD_cons_succ, ih v j hj]
            cases j with
            | zero => simp
            | succ k => simp
      · rw [if_pos h1]
        cases i with
        | zero => simp [h1]
        | succ j =>
            have hj : j < rest.length := by simpa using hi
            rw [List.getD_cons_succ, ih v j hj]
            cases j with
            | zero => simp
            | succ k => simp

theorem compactGet_carry (l : List Int) (i : Nat) (hi : i < l.length) :
    compactGet (compact_carry_field (some l)) i =
      if l.getD i 0 = (if i = 0 then 0 else l.getD (i - 1) 0) then none
      else some (l.getD i 0) := by
  have hstep := compactCarryGo_getD l 0 i hi
  cases hc : (compactCarryGo 0 l).all (fun x => x = none) with
  | true =>
      have hlen : i < (compactCarryGo 0 l).length := by
        rw [compactCarryGo_length]
        exact hi
      have hel : (compactCarryGo 0 l).getD i none = none := by
        rw [List.getD_eq_getElem _ _ hlen]
        have := List.all_eq_true.mp hc _ (List.getElem_mem hlen)
        simpa using this
      have h2 : compactGet (compact_carry_field (some l)) i = none := by
        simp [compact_carry_field, hc, compactGet]
      rw [h2, ← hstep, hel]
  | false =>
      have h2 : compactGet (compact_carry_field (some l)) i =
          (compactCarryGo 0 l).getD i none := by
        simp [compact_carry_field, hc, compactGet]
      rw [h2, hstep]

theorem compactGet_carry_ge (l : List Int) (i : Nat) (hi : l.length ≤ i) :
    compactGet (compact_carry_field (some l)) i = none := by
  cases hc : (compactCarryGo 0 l).all (fun x => x = none) with
  | true => simp [compact_carry_field, hc, compactGet]
  | false =>
      have h2 : compactGet (compact_carry_field (some l)) i =
          (compactCarryGo 0 l).getD i none := by
        simp [compact_carry_field, hc, compactGet]
      rw [h2]
      exact List.getD_eq_default _ _ (by rw [compactCarryGo_length]; exact hi)

theorem compactGet_subtype (l : List Int) (i : Nat) (hi : i < l.length) :
    compactGet (compact_subtype (some l)) i =
      if l.getD i 0 = 0 then none else some (l.getD i 0) := by
  have hlen : i < (l.map (fun v => if v = 0 then none else some v)).length := by
    simpa using hi
  have hel : (l.map (fun v => if v = 0 then none else some v)).getD i none =
      if l.getD i 0 = 0 then none else some (l.getD i 0) := by
    rw [List.getD_eq_getElem _ _ hlen, List.getElem_map,
      List.getD_eq_getElem _ _ hi]
  cases hc : (l.map (fun v => if v = 0 then none else some v)).all (fun x => x = none) with
  | true =>
      have hnone : (l.map (fun v => if v = 0 then none else some v)).getD i none = none := by
        rw [List.getD_eq_getElem _ _ hlen]
        have := List.all_eq_true.mp hc _ (List.getElem_mem hlen)
        simpa using this
      have h2 : compactGet (compact_subtype (some l)) i = none := by
        simp [compact_subtype, hc, compactGet]
      rw [h2, ← hel, hnone]
  | false =>
      have h2 : compactGet (compact_subtype (some l)) i =
          (l.map (fun v => if v = 0 then none else some v)).getD i none := by
        simp [compact_subtype, hc, compactGet]
      rw [h2, hel]

theorem compactGet_subtype_ge (l : List Int) (i : Nat) (hi : l.length ≤ i) :
    compactGet (compact_subtype (some l)) i = none := by
  cases hc : (l.map (fun v => if v = 0 then none else some v)).all (fun x => x = none) with
  | true => simp [compact_subtype, hc, compactGet]
  | false =>
      have h2 : compactGet (compact_subtype (some l)) i =
          (l.map (fun v => if v = 0 then none else some v)).getD i none := by
        simp [compact_subtype, hc, compactGet]
      rw [h2]
      exact List.getD_eq_default _ _ (by simpa using hi)

theorem compactGet_aux (l : List String) (i : Nat) (hi : i < l.length) :
    compactGet (compact_aux_note (some l)) i =
      if l.getD i "" = "" then none else some (l.getD i "") := by
  have hlen : i < (l.map (fun v => if v = "" then none else some v)).length := by
    simpa using hi
  have hel : (l.map (fun v => if v = "" then none else some v)).getD i none =
      if l.getD i "" = "" then none else some (l.getD i "") := by
    rw [List.getD_eq_getElem _ _ hlen, List.getElem_map,
      List.getD_eq_getElem _ _ hi]
  cases hc : (l.map (fun v => if v = "" then none else some v)).all (fun x => x = none) with
  | true =>
      have hnone : (l.map (fun v => if v = "" then none else some v)).getD i none = none := by
        rw [List.getD_eq_getElem _ _ hlen]
        have := List.all_eq_true.mp hc _ (List.getElem_mem hlen)
        simpa using this
      have h2 : compactGet (compact_aux_note (some l)) i = none := by
        simp [compact_aux_note, hc, compactGet]
      rw [h2, ← hel, hnone]
  | false =>
      have h2 : compactGet (compact_aux_note (some l)) i =
          (l.map (fun v => if v = "" then none else some v)).getD i none := by
        simp [compact_aux_note, hc, compactGet]
      rw [h2, hel]

theorem compactGet_aux_ge (l : List String) (i : Nat) (hi : l.length ≤ i) :
    compactGet (compact_aux_note (some l)) i = none := by
  cases hc : (l.map (fun v => if v = "" then none else some v)).all (fun x => x = none) with
  | true => simp [compact_aux_note, hc, compactGet]
  | false =>
      have h2 : compactGet (compact_aux_note (some l)) i =
          (l.map (fun v => if v = "" then none else some v)).getD i none := by
        simp [compact_aux_note, hc, compactGet]
      rw [h2]
      exact List.getD_eq_default _ _ (by simpa using hi)

theorem coreBytesGo_pairs (nm sub ch : Option (List (Option Int)))
    (ax : Option (List (Option String))) :
    ∀ (sds : List Int) (syms : List String) (i : Nat),
    sds.length ≤ syms.length →
    (∀ sym ∈ syms, (symbolToTypecode sym).isSome) →
    (∀ d ∈ sds, 0 ≤ d ∧ d ≤ 2147483647) →
    (∀ j s, compactGet ax j = some s → s.length ≤ 255 ∧ ∀ c ∈ s.data, c.toNat ≤ 255) →
    ∃ flat, coreBytesGo nm sub ch ax sds syms i = some flat ∧
      toPairs (flat.map u8 ++ [0, 0]) = assemble (absListOf nm sub ch ax sds syms i) ∧
      ∀ e ∈ absListOf nm sub ch ax sds syms i, e.ok := by
  intro sds
  induction sds with
  | nil =>
      intro syms i _ _ _ _
      refine ⟨[], rfl, ?_, by simp [absListOf]⟩
      simp [absListOf, assemble, toPairs]
  | cons sd sds ih =>
      intro syms i hlen hsym hd hax
      cases syms with
      | nil => simp at hlen
      | cons sym syms' =>
          obtain ⟨c, hc⟩ := Option.isSome_iff_exists.mp
            (hsym sym (List.mem_cons_self _ _))
          obtain ⟨hd0, hd1⟩ := hd sd (List.mem_cons_self _ _)
          obtain ⟨bs, hbs, hbseven, hbspairs⟩ :=
            eventBytes_pairs sd sym c hc hd0 hd1 (compactGet nm i)
              (compactGet sub i) (compactGet ch i) (compactGet ax i)
              (fun s hs => (hax i s hs).1) (fun s hs => (hax i s hs).2)
          obtain ⟨flat, hflat, hpairs, hok⟩ := ih syms' (i + 1)
            (by simpa using hlen)
            (fun s hs => hsym s (List.mem_cons_of_mem _ hs))
            (fun d hd' => hd d (List.mem_cons_of_mem _ hd')) hax
          have hcons : absListOf nm sub ch ax (sd :: sds) (sym :: syms') i =
              absEventOf sd c (compactGet nm i) (compactGet sub i)
                (compactGet ch i) (compactGet ax i) ::
              absListOf nm sub ch ax sds syms' (i + 1) := by
            simp [absListOf, hc]
          refine ⟨bs ++ flat, ?_, ?_, ?_⟩
          · unfold coreBytesGo
            simp only [hbs, hflat]
          · rw [List.map_append, List.append_assoc,
              toPairs_append_even _ _ (by simpa using hbseven), hbspairs, hpairs,
              hcons, assemble_cons]
          · intro e he
            rw [hcons] at he
            rcases List.mem_cons.mp he with he | he
            · subst he
              exact absEventOf_ok _ _ _ _ _ _ hd0 hd1
                (symbolToTypecode_bounds sym c hc).2
                (fun s hs => (hax i s hs).1) (fun s hs => (hax i s hs).2)
            · exact hok e he

theorem take_succ_getD {α : Type} (l : List α) (j : Nat) (d : α) (hj : j < l.length) :
    l.take (j + 1) = l.take j ++ [l.getD j d] := by
  rw [List.take_succ, List.getD_eq_getElem _ _ hj, List.getElem?_eq_getElem hj]
  rfl

theorem drop_getD_cons {α : Type} (l : List α) (j : Nat) (d : α) (hj : j < l.length) :
    l.drop j = l.getD j d :: l.drop (j + 1) := by
  rw [List.drop_eq_getElem_cons hj, List.getD_eq_getElem _ _ hj]

theorem fold_absListOf (sampleF : List Int) (symsF : List String)
    (subsF chansF numsF : List Int) (auxsF : List String)
    (hsymlen : symsF.length = sampleF.length)
    (hsublen : subsF.length = sampleF.length)
    (hchlen : chansF.length = sampleF.length)
    (hnumlen : numsF.length = sampleF.length)
    (hauxlen : auxsF.length = sampleF.length)
    (hd : ∀ j, j < sampleF.length → 0 ≤ (calc_sampdiff sampleF).getD j 0)
    (hsub : ∀ v ∈ subsF, 0 ≤ v ∧ v ≤ 127)
    (hch : ∀ v ∈ chansF, 0 ≤ v ∧ v ≤ 255)
    (hnum : ∀ v ∈ numsF, 0 ≤ v ∧ v ≤ 127) :
    ∀ k i, i + k = sampleF.length →
      (absListOf (compact_carry_field (some numsF)) (compact_subtype (some subsF))
          (compact_carry_field (some chansF)) (compact_aux_note (some auxsF))
          ((calc_sampdiff sampleF).drop i) (symsF.drop i) i).foldl stepSpec
        (⟨sampleF.take i, (symsF.map symStore).take i, subsF.take i,
          (chansF.map Int.toNat).take i, numsF.take i, auxsF.take i⟩,
         if i = 0 then 0 else sampleF.getD (i - 1) 0) =
      (⟨sampleF, symsF.map symStore, subsF, chansF.map Int.toNat, numsF, auxsF⟩,
       if sampleF.length = 0 then 0 else sampleF.getD (sampleF.length - 1) 0) := by
  intro k
  induction k with
  | zero =>
      intro i hik
      have hi : i = sampleF.length := by omega
      subst hi
      rw [List.drop_eq_nil_of_le (by rw [calc_sampdiff_length]),
        List.drop_eq_nil_of_le (by omega)]
      rw [List.take_of_length_le (le_refl _),
        List.take_of_length_le (by simp [hsymlen]),
        List.take_of_length_le (by omega),
        List.take_of_length_le (by simp [hchlen]),
        List.take_of_length_le (by omega),
        List.take_of_length_le (by omega)]
      rfl
  | succ k ihk =>
      intro i hik
      have hin : i < sampleF.length := by omega
      have hlen1 : i < (calc_sampdiff sampleF).length := by
        rw [calc_sampdiff_length]
        exact hin
      have hlen2 : i < symsF.length := by omega
      have hlen3 : i < subsF.length := by omega
      have hlen4 : i < chansF.length := by omega
      have hlen5 : i < numsF.length := by omega
      have hlen6 : i < auxsF.length := by omega
      have hd0 : 0 ≤ (calc_sampdiff sampleF).getD i 0 := hd i hin
      rw [drop_getD_cons (calc_sampdiff sampleF) i 0 hlen1,
        drop_getD_cons symsF i "" hlen2]
      have hcons : absListOf (compact_carry_field (some numsF))
          (compact_subtype (some subsF)) (compact_carry_field (some chansF))
          (compact_aux_note (some auxsF))
          ((calc_sampdiff sampleF).getD i 0 :: (calc_sampdiff sampleF).drop (i + 1))
          (symsF.getD i "" :: symsF.drop (i + 1)) i =
          absEventOf ((calc_sampdiff sampleF).getD i 0) (symStore (symsF.getD i ""))
            (compactGet (compact_carry_field (some numsF)) i)
            (compactGet (compact_subtype (some subsF)) i)
            (compactGet (compact_carry_field (some chansF)) i)
            (compactGet (compact_aux_note (some auxsF)) i) ::
          absListOf (compact_carry_field (some numsF)) (compact_subtype (some subsF))
            (compact_carry_field (some chansF)) (compact_aux_note (some auxsF))
            ((calc_sampdiff sampleF).drop (i + 1)) (symsF.drop (i + 1)) (i + 1) := by
        simp [absListOf, symStore]
      rw [hcons, List.foldl_cons]
      have htot : (if i = 0 then (0 : Int) else sampleF.getD (i - 1) 0) +
          (calc_sampdiff sampleF).getD i 0 = sampleF.getD i 0 := by
        rw [calc_sampdiff_getD sampleF i hin]
        by_cases h0 : i = 0
        · simp [h0]
        · simp only [if_neg h0]
          ring
      have hsubval : (match (absEventOf ((calc_sampdiff sampleF).getD i 0)
          (symStore (symsF.getD i "")) (compactGet (compact_carry_field (some numsF)) i)
          (compactGet (compact_subtype (some subsF)) i)
          (compactGet (compact_carry_field (some chansF)) i)
          (compactGet (compact_aux_note (some auxsF)) i)).subVal with
          | some v => i8 v | none => 0) = subsF.getD i 0 := by
        rw [absEventOf_subVal, compactGet_subtype subsF i hlen3]
        by_cases hz : subsF.getD i 0 = 0
        · rw [if_pos hz]
          exact hz.symm
        · have hmemv : subsF.getD i 0 ∈ subsF := by
            rw [List.getD_eq_getElem _ _ hlen3]
            exact List.getElem_mem hlen3
          obtain ⟨hv1, hv2⟩ := hsub _ hmemv
          rw [if_neg hz]
          show i8 (u8 (subsF.getD i 0)) = subsF.getD i 0
          exact i8_u8 _ hv1 hv2
      have hchval : (match (absEventOf ((calc_sampdiff sampleF).getD i 0)
          (symStore (symsF.getD i "")) (compactGet (compact_carry_field (some numsF)) i)
          (compactGet (compact_subtype (some subsF)) i)
          (compactGet (compact_carry_field (some chansF)) i)
          (compactGet (compact_aux_note (some auxsF)) i)).chanVal with
          | some v => v
          | none => ((chansF.map Int.toNat).take i).getLastD 0) =
          (chansF.getD i 0).toNat := by
        rw [absEventOf_chanVal, compactGet_carry chansF i hlen4]
        have hmemv : chansF.getD i 0 ∈ chansF := by
          rw [List.getD_eq_getElem _ _ hlen4]
          exact List.getElem_mem hlen4
        obtain ⟨hv1, hv2⟩ := hch _ hmemv
        by_cases heq : chansF.getD i 0 = (if i = 0 then 0 else chansF.getD (i - 1) 0)
        · rw [if_pos heq]
          show ((chansF.map Int.toNat).take i).getLastD 0 = (chansF.getD i 0).toNat
          by_cases h0 : i = 0
          · subst h0
            rw [if_pos rfl] at heq
            rw [heq]
            rfl
          · rw [getLastD_take (chansF.map Int.toNat) i 0 (by omega)
              (by rw [List.length_map]; omega)]
            rw [if_neg h0] at heq
            rw [heq]
            exact List.getD_map chansF 0 Int.toNat
        · rw [if_neg heq]
          show u8 (chansF.getD i 0) = (chansF.getD i 0).toNat
          exact u8_eq_toNat _ hv1 hv2
      have hnumval : (match (absEventOf ((calc_sampdiff sampleF).getD i 0)
          (symStore (symsF.getD i "")) (compactGet (compact_carry_field (some numsF)) i)
          (compactGet (compact_subtype (some subsF)) i)
          (compactGet (compact_carry_field (some chansF)) i)
          (compactGet (compact_aux_note (some auxsF)) i)).numVal with
          | some v => i8 v
          | none => (numsF.take i).getLastD 0) = numsF.getD i 0 := by
        rw [absEventOf_numVal, compactGet_carry numsF i hlen5]
        have hmemv : numsF.getD i 0 ∈ numsF := by
          rw [List.getD_eq_getElem _ _ hlen5]
          exact List.getElem_mem hlen5
        obtain ⟨hv1, hv2⟩ := hnum _ hmemv
        by_cases heq : numsF.getD i 0 = (if i = 0 then 0 else numsF.getD (i - 1) 0)
        · rw [if_pos heq]
          show (numsF.take i).getLastD 0 = numsF.getD i 0
          by_cases h0 : i = 0
          · subst h0
            rw [if_pos rfl] at heq
            rw [heq]
            rfl
          · rw [getLastD_take numsF i 0 (by omega) (by omega)]
            rw [if_neg h0] at heq
            exact heq.symm
        · rw [if_neg heq]
          show i8 (u8 (numsF.getD i 0)) = numsF.getD i 0
          exact i8_u8 _ hv1 hv2
      have hauxval : (match (absEventOf ((calc_sampdiff sampleF).getD i 0)
          (symStore (symsF.getD i "")) (compactGet (compact_carry_field (some numsF)) i)
          (compactGet (compact_subtype (some subsF)) i)
          (compactGet (compact_carry_field (some chansF)) i)
          (compactGet (compact_aux_note (some auxsF)) i)).auxVal with
          | some cs => String.mk (cs.map Char.ofNat)
          | none => "") = auxsF.getD i "" := by
        rw [absEventOf_auxVal, compactGet_aux auxsF i hlen6]
        by_cases hz : auxsF.getD i "" = ""
        · rw [if_pos hz]
          exact hz.symm
        · rw [if_neg hz]
          show String.mk (((auxsF.getD i "").data.map Char.toNat).map Char.ofNat) =
            auxsF.getD i ""
          exact string_mk_map_toNat _
      have hstore : (absEventOf ((calc_sampdiff sampleF).getD i 0)
          (symStore (symsF.getD i "")) (compactGet (compact_carry_field (some numsF)) i)
          (compactGet (compact_subtype (some subsF)) i)
          (compactGet (compact_carry_field (some chansF)) i)
          (compactGet (compact_aux_note (some auxsF)) i)).core.store =
          symStore (symsF.getD i "") := absCoreOf_store _ _
      have hdiff : (absEventOf ((calc_sampdiff sampleF).getD i 0)
          (symStore (symsF.getD i "")) (compactGet (compact_carry_field (some numsF)) i)
          (compactGet (compact_subtype (some subsF)) i)
          (compactGet (compact_carry_field (some chansF)) i)
          (compactGet (compact_aux_note (some auxsF)) i)).core.diff =
          (calc_sampdiff sampleF).getD i 0 := absCoreOf_diff _ _ hd0
      have hstep : stepSpec
          (⟨sampleF.take i, (symsF.map symStore).take i, subsF.take i,
            (chansF.map Int.toNat).take i, numsF.take i, auxsF.take i⟩,
           if i = 0 then 0 else sampleF.getD (i - 1) 0)
          (absEventOf ((calc_sampdiff sampleF).getD i 0) (symStore (symsF.getD i ""))
            (compactGet (compact_carry_field (some numsF)) i)
            (compactGet (compact_subtype (some subsF)) i)
            (compactGet (compact_carry_field (some chansF)) i)
            (compactGet (compact_aux_note (some auxsF)) i)) =
          (⟨sampleF.take (i + 1), (symsF.map symStore).take (i + 1), subsF.take (i + 1),
            (chansF.map Int.toNat).take (i + 1), numsF.take (i + 1), auxsF.take (i + 1)⟩,
           if i + 1 = 0 then 0 else sampleF.getD (i + 1 - 1) 0) := by
        unfold stepSpec
        dsimp only
        rw [hdiff, hstore, htot, hsubval, hchval, hnumval, hauxval]
        rw [if_neg (Nat.succ_ne_zero i)]
        have e1 : i + 1 - 1 = i := by omega
        rw [e1]
        have hsymget : symStore (symsF.getD i "") =
            (symsF.map symStore).getD i (symStore "") :=
          (List.getD_map symsF "" symStore).symm
        have hchget : (chansF.getD i 0).toNat = (chansF.map Int.toNat).getD i 0 :=
          (List.getD_map chansF 0 Int.toNat).symm
        rw [← take_succ_getD sampleF i 0 hin]
        rw [hsymget,
          ← take_succ_getD (symsF.map symStore) i (symStore "") (by rw [List.length_map]; omega)]
        rw [← take_succ_getD subsF i 0 hlen3]
        rw [hchget,
          ← take_succ_getD (chansF.map Int.toNat) i 0 (by rw [List.length_map]; omega)]
        rw [← take_succ_getD numsF i 0 hlen5]
        rw [← take_succ_getD auxsF i "" hlen6]
      rw [hstep]
      exact ihk (i + 1) (by omega)

theorem rm_empty_ident (st : AnnData)
    (h : ∀ i, i < st.sample.length →
      ¬(st.sample.getD i 0 = 0 ∧ st.label_store.getD i 0 = 22) ∧
      st.label_store.getD i 0 ≠ 0) :
    rm_empty_indices_all (get_info_inds st.sample st.label_store).2 st = st := by
  have hpot : (List.range st.sample.length).filter
      (fun i => st.sample.getD i 0 = 0 ∧ st.label_store.getD i 0 = 22) = [] := by
    rw [List.filter_eq_nil_iff]
    intro i hi
    have := (h i (List.mem_range.mp hi)).1
    simpa using this
  have hnot : (List.range st.sample.length).filter
      (fun i => st.label_store.getD i 0 = 0) = [] := by
    rw [List.filter_eq_nil_iff]
    intro i hi
    have := (h i (List.mem_range.mp hi)).2
    simpa using this
  unfold get_info_inds
  dsimp only
  rw [hpot, hnot]
  rfl

/-- **C1** (amended).  Core round-trip of the annotation codec: for an
annotation set whose symbols all resolve in the standard table, whose
sample numbers start non-negatively and are non-decreasing with
successive differences at most `2^31 - 1` (not `2^31`, which the
validator admits but the 32-bit two's-complement SKIP encoding cannot
represent), whose optional fields are in their byte ranges, whose
aux_note strings fit one length byte with single-byte characters, and
which contains no annotation at sample 0 whose label resolves to
store 22 (such annotations are excised as metadata on read),
encoding the core byte stream and decoding it back reproduces every
field: the sample indices, the label store codes resolved from the
symbols, and the subtype/chan/num/aux_note values. -/
theorem C1_roundtrip_amended
    (sample : List Int) (symbol : List String)
    (subs chans nums : List Int) (auxs : List String)
    (hn : sample ≠ [])
    (hsymlen : symbol.length = sample.length)
    (hsublen : subs.length = sample.length)
    (hchlen : chans.length = sample.length)
    (hnumlen : nums.length = sample.length)
    (hauxlen : auxs.length = sample.length)
    (hsym : ∀ sym ∈ symbol, (symbolToTypecode sym).isSome)
    (hdiff : ∀ d ∈ calc_sampdiff sample, 0 ≤ d ∧ d ≤ 2147483647)
    (hsub : ∀ v ∈ subs, 0 ≤ v ∧ v ≤ 127)
    (hch : ∀ v ∈ chans, 0 ≤ v ∧ v ≤ 255)
    (hnum : ∀ v ∈ nums, 0 ≤ v ∧ v ≤ 127)
    (haux : ∀ s ∈ auxs, s.length ≤ 255 ∧ ∀ c ∈ s.data, c.toNat ≤ 255)
    (hinfo : ∀ i, i < sample.length →
      ¬(sample.getD i 0 = 0 ∧ symStore (symbol.getD i "") = 22)) :
    ∃ bytes, calc_core_bytes sample symbol (some subs) (some chans) (some nums)
        (some auxs) = some bytes ∧
      decode_core (toPairs (bytes ++ [0, 0])) none =
        ⟨sample, symbol.map symStore, subs, chans.map Int.toNat, nums, auxs⟩ := by
  have hax' : ∀ j s, compactGet (compact_aux_note (some auxs)) j = some s →
      s.length ≤ 255 ∧ ∀ c ∈ s.data, c.toNat ≤ 255 := by
    intro j s hs
    by_cases hj : j < auxs.length
    · rw [compactGet_aux auxs j hj] at hs
      by_cases hz : auxs.getD j "" = ""
      · rw [if_pos hz] at hs
        exact absurd hs (by simp)
      · rw [if_neg hz] at hs
        have hsj : s = auxs.getD j "" := by
          exact (Option.some.injEq _ _ ▸ hs).symm
        subst hsj
        apply haux
        rw [List.getD_eq_getElem _ _ hj]
        exact List.getElem_mem hj
    · rw [compactGet_aux_ge auxs j (by omega)] at hs
      exact absurd hs (by simp)
  obtain ⟨flat, hflat, hpairs, hok⟩ := coreBytesGo_pairs
    (compact_carry_field (some nums)) (compact_subtype (some subs))
    (compact_carry_field (some chans)) (compact_aux_note (some auxs))
    (calc_sampdiff sample) symbol 0
    (by rw [calc_sampdiff_length, hsymlen]) hsym hdiff hax'
  have hd' : ∀ j, j < sample.length → 0 ≤ (calc_sampdiff sample).getD j 0 := by
    intro j hj
    have hj' : j < (calc_sampdiff sample).length := by
      rw [calc_sampdiff_length]
      exact hj
    refine (hdiff _ ?_).1
    rw [List.getD_eq_getElem _ _ hj']
    exact List.getElem_mem hj'
  have hfold := fold_absListOf sample symbol subs chans nums auxs hsymlen hsublen
    hchlen hnumlen hauxlen hd' hsub hch hnum sample.length 0 (by omega)
  simp only [List.drop_zero, List.take_zero, eq_self_iff_true, if_true] at hfold
  refine ⟨flat.map u8, ?_, ?_⟩
  · unfold calc_core_bytes
    dsimp only
    rw [hflat]
    rfl
  · unfold decode_core extract_ann_data
    rw [hpairs, extract_loop_assemble _ _ _ hok, hfold]
    dsimp only
    refine rm_empty_ident
      ⟨sample, symbol.map symStore, subs, chans.map Int.toNat, nums, auxs⟩ ?_
    intro i hi
    dsimp only at hi ⊢
    have hi2 : i < symbol.length := by omega
    have hmem : symbol.getD i "" ∈ symbol := by
      rw [List.getD_eq_getElem _ _ hi2]
      exact List.getElem_mem hi2
    obtain ⟨c, hc⟩ := Option.isSome_iff_exists.mp (hsym _ hmem)
    have hcb := symbolToTypecode_bounds _ _ hc
    have hget : (symbol.map symStore).getD i 0 = symStore (symbol.getD i "") :=
      List.getD_map symbol "" symStore
    have hstore : symStore (symbol.getD i "") = c := by
      unfold symStore
      rw [hc]
      rfl
    constructor
    · rw [hget]
      exact hinfo i hi
    · rw [hget, hstore]
      omega

/-- Witness for the amended C1 round-trip at the spec's concrete
scenario `sample=[10,20,400], symbol=['N','N','[']` extended with
subtype/chan/num/aux_note values exercising the carry and reset
rules. -/
theorem C1_roundtrip_amended_witness :
    ∃ bytes, calc_core_bytes [10, 20, 400] ["N", "N", "["] (some [5, 0, 0])
        (some [3, 3, 0]) (some [0, 1, 1]) (some ["", "ab", ""]) = some bytes ∧
      decode_core (toPairs (bytes ++ [0, 0])) none =
        ⟨[10, 20, 400], ["N", "N", "["].map symStore, [5, 0, 0],
         [3, 3, 0].map Int.toNat, [0, 1, 1], ["", "ab", ""]⟩ :=
  C1_roundtrip_amended [10, 20, 400] ["N", "N", "["] [5, 0, 0] [3, 3, 0]
    [0, 1, 1] ["", "ab", ""] (by decide) (by decide) (by decide) (by decide)
    (by decide) (by decide) (by decide) (by decide) (by decide) (by decide)
    (by decide) (by decide) (by decide)

/-- **C1** counterexample.  The claim as stated is false: the sample
field `[2147483648]` passes the validator's check (its test is
`max(sampdiffs) > 2**31`, which ignores a difference of exactly
`2^31`), the encoder emits a SKIP word for it, but the decoder
reinterprets the four difference bytes as the two's-complement value
`-2^31`, so decoding the encoding does not reproduce the set. -/
theorem C1_counterexample :
    check_field_sample [2147483648] = Except.ok () ∧
    calc_core_bytes [2147483648] ["N"] none none none none =
      some [0, 236, 0, 128, 0, 0, 0, 4] ∧
    (decode_core (toPairs ([0, 236, 0, 128, 0, 0, 0, 4] ++ [0, 0])) none).sample =
      [-2147483648] ∧
    (decode_core (toPairs ([0, 236, 0, 128, 0, 0, 0, 4] ++ [0, 0])) none).sample ≠
      [2147483648] := by
  have hst : extract_ann_data (toPairs ([0, 236, 0, 128, 0, 0, 0, 4] ++ [0, 0])) none =
      ⟨[-2147483648], [1], [0], [0], [0], [""]⟩ := by
    simp [extract_ann_data, toPairs, extract_ann_data_loop, proc_core_fields,
      proc_extra_fields_loop, proc_extra_field, update_extra_fields, i8]
  refine ⟨rfl, rfl, ?_, ?_⟩
  · unfold decode_core
    rw [hst]
    decide
  · unfold decode_core
    rw [hst]
    decide

/-! ### Truncation: lockstep comparison of bounded and unbounded runs -/

/-- `update_extra_fields` never touches the `sample` and
`label_store` accumulators. -/
theorem update_sample_label (st : AnnData) (u : UpdateFlags) :
    ((update_extra_fields st u).sample = st.sample) ∧
    ((update_extra_fields st u).label_store = st.label_store) := by
  unfold update_extra_fields
  rcases u with ⟨us, uc, un, ua⟩
  cases us <;> cases uc <;> cases un <;> cases ua <;> exact ⟨rfl, rfl⟩

/-- The extra-field loop never touches the `sample` and `label_store`
accumulators. -/
theorem proc_extras_sample_label (fb : List BytePair) (st : AnnData) (u : UpdateFlags) :
    ((proc_extra_fields_loop fb st u).1.sample = st.sample) ∧
    ((proc_extra_fields_loop fb st u).1.label_store = st.label_store) := by
  induction fb, st, u using proc_extra_fields_loop.induct with
  | case1 fb st u tag h r ih =>
      have hr : ((proc_extra_field tag fb st u).1.sample = st.sample) ∧
          ((proc_extra_field tag fb st u).1.label_store = st.label_store) := by
        unfold proc_extra_field
        split_ifs <;> exact ⟨rfl, rfl⟩
      rw [proc_extra_fields_loop]
      simp only [tag, r] at *
      rw [dif_pos h]
      exact ⟨ih.1.trans hr.1, ih.2.trans hr.2⟩
  | case2 fb st u tag h =>
      rw [proc_extra_fields_loop]
      simp only [tag] at *
      rw [dif_neg h]
      exact ⟨rfl, rfl⟩

/-- Lockstep induction relating the bounded (`some t`, `t ≠ 0`) and
unbounded runs of the decoder loop from the same state: the unbounded
run appends some `newS`/`newL` to `sample`/`label_store`, and the
bounded run appends exactly the prefix of `newS` with totals `≤ t`,
with `label_store` cut to the same number of events. -/
theorem extract_loop_trunc (t : Int) (ht : t ≠ 0) :
    ∀ (n : Nat) (fb : List BytePair), fb.length ≤ n → ∀ (total : Int) (st : AnnData),
      ∃ newS newL,
        ((extract_ann_data_loop fb total st none).sample = st.sample ++ newS) ∧
        ((extract_ann_data_loop fb total st none).label_store =
          st.label_store ++ newL) ∧
        (newL.length = newS.length) ∧
        ((extract_ann_data_loop fb total st (some t)).sample =
          st.sample ++ newS.takeWhile (fun s => s ≤ t)) ∧
        ((extract_ann_data_loop fb total st (some t)).label_store =
          st.label_store ++ newL.take (newS.takeWhile (fun s => s ≤ t)).length) := by
  intro n
  induction n with
  | zero =>
      intro fb hfb total st
      have h1 : fb.length ≤ 1 := by omega
      have e1 : extract_ann_data_loop fb total st none = st := by
        rw [extract_ann_data_loop, dif_pos h1]
      have e2 : extract_ann_data_loop fb total st (some t) = st := by
        rw [extract_ann_data_loop, dif_pos h1]
      exact ⟨[], [], by simp [e1], by simp [e1], rfl, by simp [e2], by simp [e2]⟩
  | succ n ihn =>
      intro fb hfb total st
      by_cases h1 : fb.length ≤ 1
      · have e1 : extract_ann_data_loop fb total st none = st := by
          rw [extract_ann_data_loop, dif_pos h1]
        have e2 : extract_ann_data_loop fb total st (some t) = st := by
          rw [extract_ann_data_loop, dif_pos h1]
        exact ⟨[], [], by simp [e1], by simp [e1], rfl, by simp [e2], by simp [e2]⟩
      · rcases hc : proc_core_fields fb with ⟨sd, ls, fb2⟩
        have hkey : ∃ (st2 : AnnData) (fb3 : List BytePair),
            (extract_ann_data_loop fb total st none =
              extract_ann_data_loop fb3 (total + sd) st2 none) ∧
            (t < total + sd →
              extract_ann_data_loop fb total st (some t) = rm_last st2) ∧
            (¬ t < total + sd →
              extract_ann_data_loop fb total st (some t) =
                extract_ann_data_loop fb3 (total + sd) st2 (some t)) ∧
            (st2.sample = st.sample ++ [total + sd]) ∧
            (st2.label_store = st.label_store ++ [ls]) ∧
            (fb3.length ≤ n) := by
          refine ⟨update_extra_fields (proc_extra_fields_loop fb2 { st with sample := st.sample ++ [total + sd], label_store := st.label_store ++ [ls] } ⟨true, true, true, true⟩).1 (proc_extra_fields_loop fb2 { st with sample := st.sample ++ [total + sd], label_store := st.label_store ++ [ls] } ⟨true, true, true, true⟩).2.1, (proc_extra_fields_loop fb2 { st with sample := st.sample ++ [total + sd], label_store := st.label_store ++ [ls] } ⟨true, true, true, true⟩).2.2, ?_, ?_, ?_, ?_, ?_, ?_⟩
          · rw [extract_ann_data_loop, dif_neg h1]
            simp only [hc]
          · intro hlt
            rw [extract_ann_data_loop, dif_neg h1]
            simp only [hc]
            rw [if_pos ⟨ht, hlt⟩]
          · intro hlt
            rw [extract_ann_data_loop, dif_neg h1]
            simp only [hc]
            rw [if_neg (fun hcon => hlt hcon.2)]
          · rw [(update_sample_label _ _).1, (proc_extras_sample_label _ _ _).1]
          · rw [(update_sample_label _ _).2, (proc_extras_sample_label _ _ _).2]
          · have hle1 := proc_extra_fields_loop_length_le fb2
              ({ st with sample := st.sample ++ [total + sd], label_store := st.label_store ++ [ls] })
              ⟨true, true, true, true⟩
            have h4 : (proc_core_fields fb).2.2.length ≤ fb.length - 1 := by
              unfold proc_core_fields
              dsimp only
              split <;> simp [List.length_drop] <;> omega
            rw [hc] at h4
            simp only at h4
            omega
        obtain ⟨st2, fb3, hnone, hstop, hgo, hA, hB, hlen3⟩ := hkey
        obtain ⟨newS, newL, f1, f2, flen, b1, b2⟩ := ihn fb3 hlen3 (total + sd) st2
        refine ⟨(total + sd) :: newS, ls :: newL, ?_, ?_, ?_, ?_, ?_⟩
        · rw [hnone, f1, hA]
          simp
        · rw [hnone, f2, hB]
          simp
        · simp [flen]
        · by_cases hlt : t < total + sd
          · rw [hstop hlt]
            have hnle : decide ((total + sd : Int) ≤ t) = false := by
              simp only [decide_eq_false_iff_not, not_le]
              omega
            simp [rm_last, hA, List.dropLast_concat, List.takeWhile_cons, hnle]
          · rw [hgo hlt, b1, hA]
            have hle : decide ((total + sd : Int) ≤ t) = true := by
              simp only [decide_eq_true_eq]
              omega
            simp [List.takeWhile_cons, hle]
        · by_cases hlt : t < total + sd
          · rw [hstop hlt]
            have hnle : decide ((total + sd : Int) ≤ t) = false := by
              simp only [decide_eq_false_iff_not, not_le]
              omega
            simp [rm_last, hB, List.dropLast_concat, List.takeWhile_cons, hnle]
          · rw [hgo hlt, b2, hB]
            have hle : decide ((total + sd : Int) ≤ t) = true := by
              simp only [decide_eq_true_eq]
              omega
            simp [List.takeWhile_cons, hle, List.take_succ_cons]

/-! ### Claim C2: custom label store allocation -/

/-- **C2** (code defect): `_create_label_map` cannot perform the
claimed three-pool store-code allocation.  For *any* truthy
`custom_labels` value — here a single definition without a store
code — line 644 reads the local variable `custom_labels` before its
only assignment (line 656), so Python raises `UnboundLocalError`
before any allocation logic runs; only the no-custom-labels path,
which copies the standard table, is reachable. -/
theorem C2_create_label_map_unbound :
    create_label_map (some [(none, "K", "Custom beat")]) =
      Except.error
        "UnboundLocalError: local variable custom_labels referenced before assignment" ∧
    create_label_map none = Except.ok ANN_LABELS :=
  ⟨rfl, rfl⟩

/-! ### Claim C3: sample-difference word routing -/

/-- **C3** (amended): the `'samptype'` branch of `field2bytes` routes
on `sd > 1023` only.  For `d > 1023` it emits the skip prologue
`[0, 236]`, four bytes holding `d` as unsigned 32-bit two's complement
in two little-endian 16-bit halves (high half first), and an event
word with difference 0 and the true store code; for every `d ≤ 1023` —
*including every negative `d`* — it emits the single two-byte word
`[d mod 256, (d mod 1024) div 256 + 4·code]`.  A negative difference
therefore does NOT take the skip path as the claim requires. -/
theorem C3_samptype_routing (d : Int) (sym : String) (c : Nat)
    (hsym : symbolToTypecode sym = some c) :
    (d > 1023 →
      field2bytes_samptype d sym = some
        ([0, 236, ((u32 d % 16777216) / 65536 : Nat), ((u32 d) / 16777216 : Nat),
          ((u32 d % 256 : Nat) : Int), ((u32 d % 65536) / 256 : Nat), 0,
          4 * (c : Int)] : List Int)) ∧
    (¬ d > 1023 →
      field2bytes_samptype d sym = some
        ([d % 256, d % 1024 / 256 + 4 * (c : Int)] : List Int)) := by
  unfold field2bytes_samptype
  rw [hsym]
  refine ⟨fun h => ?_, fun h => ?_⟩
  · simp only [Option.map_some', if_pos h]
  · simp only [Option.map_some', if_neg h]

/-- Witness for C3 at the negative difference `-1` with symbol `"N"`
(store code 1). -/
theorem C3_samptype_routing_witness :
    field2bytes_samptype (-1) "N" =
      some [(-1 : Int) % 256, (-1 : Int) % 1024 / 256 + 4 * ((1 : Nat) : Int)] :=
  (C3_samptype_routing (-1) "N" 1 (by decide)).2 (by decide)

/-- **C3** counterexample: on the negative difference `-1` the encoder
emits the single two-byte word `[255, 7]`, not a skip word
(`0, 236, ...`) as the claim requires for negative differences. -/
theorem C3_counterexample :
    field2bytes_samptype (-1) "N" = some [255, 7] ∧
    ¬ ∃ rest, field2bytes_samptype (-1) "N" = some ([0, 236] ++ rest) := by
  have hval : field2bytes_samptype (-1) "N" = some [255, 7] := by decide
  refine ⟨hval, ?_⟩
  rintro ⟨rest, h⟩
  rw [hval] at h
  simp at h

/-! ### Claim C4: carry-over discipline of the decoder -/

/-- **C4** (confirmed): the decoder's default/carry discipline.
`update_extra_fields` appends, for each field the current annotation
did not explicitly supply: 0 to `subtype`, the previous value
(0 before any event supplied one) to `chan` and `num`, and `""` to
`aux_note`; and on full decodes, a stream whose explicit chan words
are `[3, None, None]` yields `chan = [3, 3, 3]` while explicit
subtype words `[5, None, None]` yield `subtype = [5, 0, 0]`. -/
theorem C4_carry_discipline :
    (∀ (st : AnnData) (u : UpdateFlags),
      update_extra_fields st u =
        ⟨st.sample, st.label_store,
         (if u.subtype then st.subtype ++ [0] else st.subtype),
         (if u.chan then st.chan ++ [st.chan.getLastD 0] else st.chan),
         (if u.num then st.num ++ [st.num.getLastD 0] else st.num),
         (if u.aux_note then st.aux_note ++ [""] else st.aux_note)⟩) ∧
    (extract_ann_data [(10, 4), (3, 248), (10, 4), (10, 4), (0, 0)] none).chan =
      [3, 3, 3] ∧
    (extract_ann_data [(10, 4), (5, 244), (10, 4), (10, 4), (0, 0)] none).subtype =
      [5, 0, 0] := by
  refine ⟨fun st u => ?_, ?_, ?_⟩
  · unfold update_extra_fields
    rcases u with ⟨us, uc, un, ua⟩
    rcases st with ⟨s1, s2, s3, s4, s5, s6⟩
    cases us <;> cases uc <;> cases un <;> cases ua <;> simp
  · simp [extract_ann_data, extract_ann_data_loop, proc_core_fields,
      proc_extra_fields_loop, proc_extra_field, update_extra_fields, i8]
  · simp [extract_ann_data, extract_ann_data_loop, proc_core_fields,
      proc_extra_fields_loop, proc_extra_field, update_extra_fields, i8]

/-! ### Claim C5: encoder field compaction -/

/-- **C5** (confirmed): the encoder's compaction.  For a carry field
(`chan`/`num`), annotation `i` contributes an extra word exactly when
its value differs from the previous value (implicitly 0 at the
start); for `subtype`, exactly when the value is non-zero; for
`aux_note`, exactly when the string is non-empty; and a set whose
subtypes are all 0 and whose aux_notes are all empty encodes to the
very same bytes as one with those fields absent. -/
theorem C5_compaction :
    (∀ (l : List Int) (i : Nat), i < l.length →
      compactGet (compact_carry_field (some l)) i =
        (if l.getD i 0 = (if i = 0 then 0 else l.getD (i - 1) 0) then none
         else some (l.getD i 0))) ∧
    (∀ (l : List Int) (i : Nat), i < l.length →
      compactGet (compact_subtype (some l)) i =
        (if l.getD i 0 = 0 then none else some (l.getD i 0))) ∧
    (∀ (l : List String) (i : Nat), i < l.length →
      compactGet (compact_aux_note (some l)) i =
        (if l.getD i "" = "" then none else some (l.getD i ""))) ∧
    (∀ (sample : List Int) (symbol : List String)
        (chan num : Option (List Int)) (n m : Nat),
      calc_core_bytes sample symbol (some (List.replicate n 0)) chan num
          (some (List.replicate m "")) =
        calc_core_bytes sample symbol none chan num none) := by
  refine ⟨compactGet_carry, compactGet_subtype, compactGet_aux, ?_⟩
  intro sample symbol chan num n m
  have h1 : compact_subtype (some (List.replicate n 0)) = none := by
    simp [compact_subtype, List.all_eq_true, List.mem_replicate]
  have h2 : compact_aux_note (some (List.replicate m "")) = none := by
    simp [compact_aux_note, List.all_eq_true, List.mem_replicate]
  have h3 : compact_subtype (none : Option (List Int)) = none := rfl
  have h4 : compact_aux_note (none : Option (List String)) = none := rfl
  simp only [calc_core_bytes, h1, h2, h3, h4]

/-- Witness for C5: the second 3 in `chan = [3, 3, 0]` is compacted
away, and all-default subtype/aux_note fields of length 1 encode
like absent ones. -/
theorem C5_compaction_witness :
    compactGet (compact_carry_field (some [3, 3, 0])) 1 = none ∧
    calc_core_bytes [10] ["N"] (some (List.replicate 1 0)) none none
        (some (List.replicate 1 "")) =
      calc_core_bytes [10] ["N"] none none none none := by
  constructor
  · rw [C5_compaction.1 [3, 3, 0] 1 (by decide)]
    decide
  · exact C5_compaction.2.2.2 [10] ["N"] none none 1 1

/-! ### Claim C6: validation of the sample field -/

/-- **C6** (amended): `check_field('sample')` accepts exactly the
non-empty sample arrays with non-negative entries and non-negative
successive differences at most `2147483648 = 2^31` — one more than
the claimed `2^31 - 1` representability bound, because the source
tests `max(sampdiffs) > 2147483648` instead of `>=`.  (Negative
differences are indeed always rejected, as the claim's second half
asserts.) -/
theorem C6_sample_validation_amended (sample : List Int) :
    check_field_sample sample = Except.ok () ↔
      sample ≠ [] ∧ (∀ x ∈ sample, 0 ≤ x) ∧
        (∀ d ∈ calc_sampdiff sample, 0 ≤ d ∧ d ≤ 2147483648) := by
  simp only [check_field_sample]
  split_ifs with h1 h2 h3 h4
  · rw [h1]
    simp
  · simp only [List.any_eq_true, decide_eq_true_eq] at h2
    obtain ⟨x, hx, hlt⟩ := h2
    simp only [reduceCtorEq, false_iff]
    rintro ⟨-, hpos, -⟩
    exact absurd (hpos x hx) (by omega)
  · simp only [List.any_eq_true, decide_eq_true_eq] at h3
    obtain ⟨d, hd, hlt⟩ := h3
    simp only [reduceCtorEq, false_iff]
    rintro ⟨-, -, hdi⟩
    exact absurd (hdi d hd).1 (by omega)
  · simp only [List.any_eq_true, decide_eq_true_eq] at h4
    obtain ⟨d, hd, hlt⟩ := h4
    simp only [reduceCtorEq, false_iff]
    rintro ⟨-, -, hdi⟩
    exact absurd (hdi d hd).2 (by omega)
  · simp only [List.any_eq_true, decide_eq_true_eq, not_exists, not_and,
      not_lt] at h2 h3 h4
    refine ⟨fun _ => ⟨h1, h2, fun d hd => ⟨h3 d hd, h4 d hd⟩⟩, fun _ => rfl⟩

/-- **C6** counterexample: the sample field `[2147483648]` — whose
single difference `2^31` is *not* representable in 31 bits — passes
validation. -/
theorem C6_counterexample :
    check_field_sample [2147483648] = Except.ok () ∧
    ¬ ((2147483648 : Int) ≤ 2147483647) :=
  ⟨rfl, by decide⟩

/-! ### Claim C8: truncation at a caller-supplied sample bound -/

/-- **C8** (amended): truncation holds only for *nonzero* bounds
(`if sampto and sampto < sample_total` is Python numeric truthiness,
so a zero bound never truncates — see the counterexample).  For every
byte stream and every nonzero bound `t`: the bounded run keeps exactly
the events of the unbounded run whose running sample totals are `≤ t`
(`takeWhile`), and `label_store` is cut to that same event count —
the partially accumulated exceeding event is discarded.  The last two
conjuncts exhibit the discard on all six per-event lists: a stream
whose first event already exceeds the bound decodes to six empty
lists, and one whose second event exceeds it keeps exactly the first
event's entry in each list. -/
theorem C8_truncation_amended (fb : List BytePair) (t : Int) (ht : t ≠ 0) :
    ((extract_ann_data fb (some t)).sample =
      (extract_ann_data fb none).sample.takeWhile (fun s => s ≤ t)) ∧
    ((extract_ann_data fb (some t)).label_store =
      (extract_ann_data fb none).label_store.take
        ((extract_ann_data fb none).sample.takeWhile (fun s => s ≤ t)).length) ∧
    (extract_ann_data [(10, 4), (5, 244), (3, 248), (10, 4), (0, 0)] (some 5) =
      ⟨[], [], [], [], [], []⟩) ∧
    (extract_ann_data [(10, 4), (5, 244), (20, 4), (0, 0)] (some 15) =
      ⟨[10], [1], [5], [0], [0], [""]⟩) := by
  obtain ⟨newS, newL, f1, f2, flen, b1, b2⟩ :=
    extract_loop_trunc t ht fb.length fb le_rfl 0 ⟨[], [], [], [], [], []⟩
  refine ⟨?_, ?_, ?_, ?_⟩
  · unfold extract_ann_data
    rw [b1, f1]
    simp
  · unfold extract_ann_data
    rw [b2, f2, f1]
    simp
  · simp [extract_ann_data, extract_ann_data_loop, proc_core_fields,
      proc_extra_fields_loop, proc_extra_field, update_extra_fields, rm_last, i8]
  · simp [extract_ann_data, extract_ann_data_loop, proc_core_fields,
      proc_extra_fields_loop, proc_extra_field, update_extra_fields, rm_last, i8]

/-- Witness for C8 at the stream `[(1, 4), (0, 0)]` and bound `-1`
(the single event at sample total 1 exceeds the bound and is
discarded). -/
theorem C8_truncation_amended_witness :
    ((extract_ann_data [(1, 4), (0, 0)] (some (-1))).sample =
      (extract_ann_data [(1, 4), (0, 0)] none).sample.takeWhile
        (fun s => s ≤ (-1 : Int))) ∧
    ((extract_ann_data [(1, 4), (0, 0)] (some (-1))).label_store =
      (extract_ann_data [(1, 4), (0, 0)] none).label_store.take
        ((extract_ann_data [(1, 4), (0, 0)] none).sample.takeWhile
          (fun s => s ≤ (-1 : Int))).length) ∧
    (extract_ann_data [(10, 4), (5, 244), (3, 248), (10, 4), (0, 0)] (some 5) =
      ⟨[], [], [], [], [], []⟩) ∧
    (extract_ann_data [(10, 4), (5, 244), (20, 4), (0, 0)] (some 15) =
      ⟨[10], [1], [5], [0], [0], [""]⟩) :=
  C8_truncation_amended [(1, 4), (0, 0)] (-1) (by decide)

/-- **C8** counterexample: with the bound 0 — under which the claim
requires the event at sample total 1 to be discarded — the decoder
performs no truncation at all (`if sampto and ...` is false for 0)
and returns the event. -/
theorem C8_counterexample :
    ((extract_ann_data [(1, 4), (0, 0)] (some 0)).sample = [1]) ∧ ((0 : Int) < 1) := by
  constructor
  · simp [extract_ann_data, extract_ann_data_loop, proc_core_fields,
      proc_extra_fields_loop, proc_extra_field, update_extra_fields]
  · decide

/-! ### Claim C9: sampling-frequency header fallback -/

/-- **C9** (confirmed; the header reader is a collaborator outside
this file's source, modelled from the spec): the fallback consults the
header reader only when the annotation stream carried no frequency,
and a failing lookup is swallowed — the frequency stays unset and no
error propagates. -/
theorem C9_fs_fallback_swallow (α : Type) (f g : α) :
    (∀ hdr : Except Unit α, rdann_fs_fallback (some f) hdr = (some f, false)) ∧
    rdann_fs_fallback (none : Option α) (Except.ok g) = (some g, true) ∧
    rdann_fs_fallback (none : Option α) (Except.error ()) =
      ((none : Option α), true) :=
  ⟨fun _ => rfl, rfl, rfl⟩

/-! ### Claim C10: equal accumulator lengths -/

/-- Each `stepSpec` application appends exactly one element to each of
the six accumulator lists. -/
theorem foldl_stepSpec_lengths (evs : List AbsEvent) (p : AnnData × Int) :
    ((evs.foldl stepSpec p).1.sample.length = p.1.sample.length + evs.length) ∧
    ((evs.foldl stepSpec p).1.label_store.length = p.1.label_store.length + evs.length) ∧
    ((evs.foldl stepSpec p).1.subtype.length = p.1.subtype.length + evs.length) ∧
    ((evs.foldl stepSpec p).1.chan.length = p.1.chan.length + evs.length) ∧
    ((evs.foldl stepSpec p).1.num.length = p.1.num.length + evs.length) ∧
    ((evs.foldl stepSpec p).1.aux_note.length = p.1.aux_note.length + evs.length) := by
  induction evs generalizing p with
  | nil => simp
  | cons e evs ih =>
      simp only [List.foldl_cons, List.length_cons]
      obtain ⟨h1, h2, h3, h4, h5, h6⟩ := ih (stepSpec p e)
      have hs : ((stepSpec p e).1.sample.length = p.1.sample.length + 1) ∧
          ((stepSpec p e).1.label_store.length = p.1.label_store.length + 1) ∧
          ((stepSpec p e).1.subtype.length = p.1.subtype.length + 1) ∧
          ((stepSpec p e).1.chan.length = p.1.chan.length + 1) ∧
          ((stepSpec p e).1.num.length = p.1.num.length + 1) ∧
          ((stepSpec p e).1.aux_note.length = p.1.aux_note.length + 1) := by
        simp [stepSpec]
      obtain ⟨s1, s2, s3, s4, s5, s6⟩ := hs
      rw [h1, h2, h3, h4, h5, h6, s1, s2, s3, s4, s5, s6]
      refine ⟨?_, ?_, ?_, ?_, ?_, ?_⟩ <;> omega

/-- **C10** (confirmed): on every well-formed abstract stream — one
core word per event followed by at most one extra-field word per
field (the `Nodup` tag condition of `AbsEvent.ok`) — the decoder
leaves all six accumulator lists with exactly one element per decoded
event, hence of equal length. -/
theorem C10_equal_lengths (evs : List AbsEvent) (h : ∀ e ∈ evs, e.ok) :
    ((extract_ann_data (assemble evs) none).sample.length = evs.length) ∧
    ((extract_ann_data (assemble evs) none).label_store.length = evs.length) ∧
    ((extract_ann_data (assemble evs) none).subtype.length = evs.length) ∧
    ((extract_ann_data (assemble evs) none).chan.length = evs.length) ∧
    ((extract_ann_data (assemble evs) none).num.length = evs.length) ∧
    ((extract_ann_data (assemble evs) none).aux_note.length = evs.length) := by
  unfold extract_ann_data
  rw [extract_loop_assemble evs ⟨[], [], [], [], [], []⟩ 0 h]
  have := foldl_stepSpec_lengths evs (⟨[], [], [], [], [], []⟩, 0)
  simpa using this

/-- Witness for C10 on a one-event stream with one chan word. -/
theorem C10_equal_lengths_witness :
    ((extract_ann_data (assemble [⟨CoreW.plain 10 1, [ExtraW.wchan 3]⟩])
        none).sample.length = 1) ∧
    ((extract_ann_data (assemble [⟨CoreW.plain 10 1, [ExtraW.wchan 3]⟩])
        none).label_store.length = 1) ∧
    ((extract_ann_data (assemble [⟨CoreW.plain 10 1, [ExtraW.wchan 3]⟩])
        none).subtype.length = 1) ∧
    ((extract_ann_data (assemble [⟨CoreW.plain 10 1, [ExtraW.wchan 3]⟩])
        none).chan.length = 1) ∧
    ((extract_ann_data (assemble [⟨CoreW.plain 10 1, [ExtraW.wchan 3]⟩])
        none).num.length = 1) ∧
    ((extract_ann_data (assemble [⟨CoreW.plain 10 1, [ExtraW.wchan 3]⟩])
        none).aux_note.length = 1) := by
  refine C10_equal_lengths [⟨CoreW.plain 10 1, [ExtraW.wchan 3]⟩] ?_
  intro e he
  simp only [List.mem_singleton] at he
  subst he
  refine ⟨⟨by decide, by decide⟩, ?_, by decide⟩
  intro w hw
  simp only [List.mem_singleton] at hw
  subst hw
  show (3 : Nat) ≤ 255
  decide

/-! ### Claim C7: metadata extraction and excision -/

/-- Looking up every index of a list in order reproduces the list. -/
theorem filterMap_get?_range {α : Type} (l : List α) :
    (List.range l.length).filterMap l.get? = l := by
  induction l with
  | nil => rfl
  | cons a l ih =>
      rw [List.length_cons, List.range_succ_eq_map]
      simp only [List.filterMap_cons, List.get?_cons_zero, List.filterMap_map]
      simp only [Function.comp_def, List.get?_cons_succ]
      rw [ih]

/-- `filterMap_get?_range` with the length supplied as an equation. -/
theorem filterMap_get?_range_of_len {α : Type} (l : List α) (n : Nat)
    (h : l.length = n) : (List.range n).filterMap l.get? = l := by
  subst h
  exact filterMap_get?_range l

/-- Membership in the removal set of `get_info_inds`: exactly the
in-range indices whose annotation has sample 0 and store 22, or
store 0. -/
theorem info_inds_mem (sample : List Int) (label_store : List Nat) (i : Nat)
    (hi : i < sample.length) :
    i ∈ (get_info_inds sample label_store).2 ↔
      ((sample.getD i 0 = 0 ∧ label_store.getD i 0 = 22) ∨
        label_store.getD i 0 = 0) := by
  simp [get_info_inds, List.mem_append, List.mem_filter, List.mem_range, hi]

/-- Specification of the definitions-block scanner: starting at the
first of `lines` (each matching the custom-label regex with the
corresponding triplet), it collects all triplets and stops one step
past the closing `## end of definitions` line. -/
theorem parse_defs_spec (lines : List String)
    (triplets : List (Nat × String × String))
    (hl : List.Forall₂ (fun l tr => rx_custom_label_match l = some tr) lines triplets) :
    ∀ (pre rest : List String) (acc : List (Nat × String × String)) (fuel : Nat),
      lines.length + 1 ≤ fuel →
      parse_defs_lines (pre ++ (lines ++ "## end of definitions" :: rest)) fuel
        pre.length acc = .ok (acc ++ triplets, pre.length + lines.length + 1) := by
  induction hl with
  | nil =>
      intro pre rest acc fuel hfuel
      obtain ⟨f, rfl⟩ : ∃ f, fuel = f + 1 := ⟨fuel - 1, by omega⟩
      have hget : (pre ++ ([] ++ "## end of definitions" :: rest)).get? pre.length =
          some "## end of definitions" := by
        rw [List.nil_append, List.get?_append_right le_rfl]
        simp
      simp only [parse_defs_lines, hget]
      simp
  | @cons a tr l₁ l₂ hmatch hrest ih =>
      intro pre rest acc fuel hfuel
      obtain ⟨f, rfl⟩ : ∃ f, fuel = f + 1 := ⟨fuel - 1, by omega⟩
      have hget : (pre ++ ((a :: l₁) ++ "## end of definitions" :: rest)).get?
          pre.length = some a := by
        rw [List.get?_append_right le_rfl]
        simp
      have hne : a ≠ "## end of definitions" := by
        intro he
        have hnone : rx_custom_label_match "## end of definitions" = none := by decide
        rw [he, hnone] at hmatch
        exact Option.noConfusion hmatch
      have step : parse_defs_lines (pre ++ ((a :: l₁) ++ "## end of definitions" :: rest))
          (f + 1) pre.length acc =
          parse_defs_lines (pre ++ ((a :: l₁) ++ "## end of definitions" :: rest)) f
            (pre.length + 1) (acc ++ [tr]) := by
        simp only [parse_defs_lines, hget]
        rw [if_neg hne]
        simp only [hmatch]
      rw [step]
      have h2 : l₁.length + 1 ≤ f := by
        simp only [List.length_cons] at hfuel
        omega
      have hres := ih (pre ++ [a]) rest (acc ++ [tr]) f h2
      simp only [List.append_assoc, List.cons_append, List.nil_append,
        List.length_append, List.length_cons, List.length_nil,
        Nat.zero_add] at hres ⊢
      rw [hres]
      congr 2
      omega

/-- One step of the info loop at an unset frequency and a matching
time-resolution comment: record the normalized frequency and advance. -/
theorem info_loop_fs_step (aux : List String) (k f i : Nat) (fs : Option ℚ)
    (cl : List (Nat × String × String)) (a : String) (q : ℚ)
    (hik : i < k) (ha : aux.get? i = some a) (hpre : startsWithChars a "## " = true)
    (hfs0 : fs = none) (hm : rx_fs_match a = some q) :
    extract_ann_info_loop aux k (f + 1) i fs cl =
      extract_ann_info_loop aux k f (i + 1) (some (normalize_fs q)) cl := by
  subst hfs0
  have ha2 : aux[i]? = some a := by
    rw [← List.get?_eq_getElem?]
    exact ha
  simp [extract_ann_info_loop, hik, ha2, hpre, hm]

/-- One step of the info loop at the definitions header: scan the
block and continue from one past its end, whatever the frequency
state is. -/
theorem info_loop_defs_step (aux : List String) (k f i i2 : Nat) (fs : Option ℚ)
    (cl cl2 : List (Nat × String × String))
    (hik : i < k)
    (ha : aux.get? i = some "## annotation type definitions")
    (hres : parse_defs_lines aux (aux.length + 1) (i + 1) cl = .ok (cl2, i2)) :
    extract_ann_info_loop aux k (f + 1) i fs cl =
      extract_ann_info_loop aux k f i2 fs cl2 := by
  have h1 : startsWithChars "## annotation type definitions" "## " = true := by
    decide
  have h2 : rx_fs_match "## annotation type definitions" = none := by decide
  have ha2 : aux[i]? = some "## annotation type definitions" := by
    rw [← List.get?_eq_getElem?]
    exact ha
  simp [extract_ann_info_loop, hik, ha2, h1, h2, hres, ite_self]

/-- The info loop exits with its accumulated state once the counter
reaches the number of potential info indices. -/
theorem info_loop_exit (aux : List String) (k f i : Nat) (fs : Option ℚ)
    (cl : List (Nat × String × String)) (hik : ¬ i < k) :
    extract_ann_info_loop aux k (f + 1) i fs cl = .ok (fs, cl) := by
  simp [extract_ann_info_loop, hik]

/-- `extract_ann_info` on the canonical prologue layout this codec
writes: a time-resolution comment first, then the definitions block,
then anything else; the recovered frequency is the normalized parsed
value, and the custom labels are the parsed triplets (collapsed to
`none` when there are no definition lines). -/
theorem extract_info_layout (fsNote : String) (q : ℚ) (lines : List String)
    (triplets : List (Nat × String × String)) (rest : List String)
    (aux : List String) (k : Nat)
    (haux : aux = fsNote :: "## annotation type definitions" ::
      (lines ++ "## end of definitions" :: rest))
    (hk : k = lines.length + 3)
    (hfs : rx_fs_match fsNote = some q)
    (hpre : startsWithChars fsNote "## " = true)
    (hlines : List.Forall₂ (fun l tr => rx_custom_label_match l = some tr)
      lines triplets) :
    extract_ann_info k aux =
      .ok (some (normalize_fs q),
        if triplets = [] then none else some triplets) := by
  have ha0 : aux.get? 0 = some fsNote := by
    rw [haux]
    rfl
  have ha1 : aux.get? 1 = some "## annotation type definitions" := by
    rw [haux]
    rfl
  have hlen : aux.length = lines.length + rest.length + 3 := by
    rw [haux]
    simp only [List.length_cons, List.length_append]
    omega
  have hdefs : parse_defs_lines aux (aux.length + 1) 2 [] =
      .ok (triplets, lines.length + 3) := by
    have h := parse_defs_spec lines triplets hlines
      [fsNote, "## annotation type definitions"] rest [] (aux.length + 1) (by omega)
    have h2 : parse_defs_lines aux (aux.length + 1) 2 [] =
        .ok (triplets, 2 + lines.length + 1) := by
      rw [haux] at h ⊢
      exact h
    rw [show (2 : Nat) + lines.length + 1 = lines.length + 3 from by omega] at h2
    exact h2
  obtain ⟨f, hf⟩ : ∃ f, k + aux.length + 1 = f + 1 + 1 + 1 :=
    ⟨k + aux.length - 2, by omega⟩
  unfold extract_ann_info
  rw [if_pos (show k > 0 by omega), hf]
  rw [info_loop_fs_step aux k (f + 1 + 1) 0 none [] fsNote q (by omega) ha0 hpre
    rfl hfs]
  rw [info_loop_defs_step aux k (f + 1) 1 (lines.length + 3)
    (some (normalize_fs q)) [] triplets (by omega) ha1 hdefs]
  rw [info_loop_exit aux k f (lines.length + 3) (some (normalize_fs q))
    triplets (by omega)]

/-- **C7** (amended): metadata excision and extraction.
(1) Excision holds as claimed: on any decoded state (six equal-length
lists), `rm_empty_indices` with the removal set of `get_info_inds`
keeps exactly the in-range indices that are neither (sample 0 and
store 22) nor store 0, in order.
(2) Frequency/definitions extraction is corrected: `extract_ann_info`
examines `aux_note[i]` with its loop counter `i < k` (`k` = number of
potential info events), i.e. only the *first k* auxiliary notes
positionally — not the notes at the potential info indices.  The
claimed recovery therefore holds for the canonical prologue layout
(time-resolution comment first, then the definitions block), proved
here, but not in general (see the counterexample).
(3) The recovered custom-label list is `none` — never `some []`. -/
theorem C7_metadata_amended :
    (∀ st : AnnData,
      st.label_store.length = st.sample.length →
      st.subtype.length = st.sample.length →
      st.chan.length = st.sample.length →
      st.num.length = st.sample.length →
      st.aux_note.length = st.sample.length →
      rm_empty_indices_all (get_info_inds st.sample st.label_store).2 st =
        (let keep := (List.range st.sample.length).filter (fun i =>
            ¬ ((st.sample.getD i 0 = 0 ∧ st.label_store.getD i 0 = 22) ∨
               st.label_store.getD i 0 = 0));
         ⟨keep.filterMap st.sample.get?, keep.filterMap st.label_store.get?,
          keep.filterMap st.subtype.get?, keep.filterMap st.chan.get?,
          keep.filterMap st.num.get?, keep.filterMap st.aux_note.get?⟩)) ∧
    (∀ (fsNote : String) (q : ℚ) (lines : List String)
        (triplets : List (Nat × String × String)) (rest : List String),
      rx_fs_match fsNote = some q →
      startsWithChars fsNote "## " = true →
      List.Forall₂ (fun l tr => rx_custom_label_match l = some tr) lines triplets →
      extract_ann_info (lines.length + 3)
        (fsNote :: "## annotation type definitions" ::
          (lines ++ "## end of definitions" :: rest)) =
        .ok (some (normalize_fs q),
          if triplets = [] then none else some triplets)) ∧
    (∀ (k : Nat) (aux : List String) (fs : Option ℚ),
      extract_ann_info k aux ≠ .ok (fs, some [])) := by
  refine ⟨?_, ?_, ?_⟩
  · intro st h2 h3 h4 h5 h6
    rcases st with ⟨s, lb, sub, ch, nm, ax⟩
    dsimp only at h2 h3 h4 h5 h6 ⊢
    by_cases hrm : (get_info_inds s lb).2 = []
    · unfold rm_empty_indices_all
      rw [if_pos hrm]
      have hkeep : (List.range s.length).filter (fun i =>
          ¬ ((s.getD i 0 = 0 ∧ lb.getD i 0 = 22) ∨ lb.getD i 0 = 0)) =
          List.range s.length := by
        rw [List.filter_eq_self]
        intro i hi
        simp only [List.mem_range] at hi
        simp only [decide_eq_true_eq]
        intro hcond
        have hmem := (info_inds_mem s lb i hi).mpr hcond
        rw [hrm] at hmem
        exact absurd hmem (List.not_mem_nil i)
      rw [hkeep]
      simp only [AnnData.mk.injEq]
      refine ⟨?_, ?_, ?_, ?_, ?_, ?_⟩ <;>
        exact (filterMap_get?_range_of_len _ _ (by omega)).symm
    · unfold rm_empty_indices_all
      rw [if_neg hrm]
      have hk2 : (List.range s.length).filter
          (fun i => ¬ i ∈ (get_info_inds s lb).2) =
          (List.range s.length).filter (fun i =>
            ¬ ((s.getD i 0 = 0 ∧ lb.getD i 0 = 22) ∨ lb.getD i 0 = 0)) := by
        apply List.filter_congr
        intro i hi
        simp only [List.mem_range] at hi
        simp only [decide_eq_decide]
        exact not_congr (info_inds_mem s lb i hi)
      dsimp only
      rw [hk2]
  · intro fsNote q lines triplets rest hfs hpre hlines
    exact extract_info_layout fsNote q lines triplets rest _ _ rfl rfl hfs hpre hlines
  · intro k aux fs h
    unfold extract_ann_info at h
    by_cases hk : k > 0
    · rw [if_pos hk] at h
      rcases hloop : extract_ann_info_loop aux k (k + aux.length + 1) 0 none []
        with e | p
      · rw [hloop] at h
        simp at h
      · rcases p with ⟨fs2, cl⟩
        rw [hloop] at h
        simp only [Except.ok.injEq, Prod.mk.injEq] at h
        obtain ⟨-, h2⟩ := h
        by_cases hcl : cl = []
        · rw [if_pos hcl] at h2
          exact Option.noConfusion h2
        · rw [if_neg hcl] at h2
          injection h2 with h3
          exact hcl h3
    · rw [if_neg hk] at h
      simp at h

/-- Witness for C7: excision on a three-event state whose first event
is an info annotation and whose second is an empty (store 0) one;
extraction on the canonical prologue with one definition line; and
the never-`some []` conjunct at a one-note stream. -/
theorem C7_metadata_amended_witness :
    (rm_empty_indices_all
        (get_info_inds [0, 5, 7] [22, 0, 1]).2
        ⟨[0, 5, 7], [22, 0, 1], [9, 8, 7], [1, 2, 3], [4, 5, 6], ["a", "b", "c"]⟩ =
      (let keep := (List.range ([0, 5, 7] : List Int).length).filter (fun i =>
          ¬ ((([0, 5, 7] : List Int).getD i 0 = 0 ∧
              ([22, 0, 1] : List Nat).getD i 0 = 22) ∨
             ([22, 0, 1] : List Nat).getD i 0 = 0));
       ⟨keep.filterMap ([0, 5, 7] : List Int).get?,
        keep.filterMap ([22, 0, 1] : List Nat).get?,
        keep.filterMap ([9, 8, 7] : List Int).get?,
        keep.filterMap ([1, 2, 3] : List Nat).get?,
        keep.filterMap ([4, 5, 6] : List Int).get?,
        keep.filterMap (["a", "b", "c"] : List String).get?⟩)) ∧
    (extract_ann_info ((["1 K Custom"] : List String).length + 3)
        ("## time resolution: 360" :: "## annotation type definitions" ::
          (["1 K Custom"] ++ "## end of definitions" :: [])) =
      .ok (some (normalize_fs 360),
        if [(1, "K", "Custom")] = ([] : List (Nat × String × String)) then none
        else some [(1, "K", "Custom")])) ∧
    (extract_ann_info 1 ["x"] ≠ .ok (none, some [])) :=
  ⟨C7_metadata_amended.1
      ⟨[0, 5, 7], [22, 0, 1], [9, 8, 7], [1, 2, 3], [4, 5, 6], ["a", "b", "c"]⟩
      rfl rfl rfl rfl rfl,
   C7_metadata_amended.2.1 "## time resolution: 360" 360 ["1 K Custom"]
      [(1, "K", "Custom")] [] (by decide) (by decide)
      (List.Forall₂.cons (by decide) List.Forall₂.nil),
   C7_metadata_amended.2.2 1 ["x"] none⟩

/-- **C7** counterexample: the claim's frequency recovery fails when
the info event is not at stream position 0.  Here the only potential
info annotation is index 1 (sample 0, store 22), carrying a valid
time-resolution comment, but with `k = 1` the loop examines only
`aux_note[0]` and recovers nothing. -/
theorem C7_counterexample :
    ((get_info_inds [5, 0] [1, 22]).1 = [1]) ∧
    (rx_fs_match "## time resolution: 360" = some 360) ∧
    (extract_ann_info 1 ["", "## time resolution: 360"] = .ok (none, none)) := by
  refine ⟨by decide, by decide, by rfl⟩

end Wfdb
